import Mathlib

/-!
Shallow embedding of the raknet shim's core algorithms: the bit-level
compressed-integer codec (`src/raknet/comp.rs`), the range list
(`src/raknet/rangelist.rs`), the LEG packet codec (`src/raknet/packet.rs`),
the receive and send engines (`src/raknet/recv.rs`, `src/raknet/send.rs`),
the LEG connection (`src/raknet/connection.rs`), the NEW connection's UDP
receive (`src/tcpudp/mod.rs`) and the bridge's payload scanner
(`src/bridge.rs`), together with theorems settling the specification claims.

Machine integers are modelled as `Nat` with explicit `% 2^w` wrapping.
Bit streams (the `endio_bit` `BitReader`/`BitWriter`) are modelled as
`List Bool`, most significant bit of each byte first, which matches the
shifted byte reads/writes of `endio_bit`.
-/

namespace Shim

/-- A byte, kept as a `Nat` (meaningful values are below 256). -/
abbrev Byte := Nat

/-- Bit `i` of `v` (`i = 0` is the least significant bit). -/
def bit (v i : Nat) : Bool := v / 2 ^ i % 2 == 1

/-- The 8 bits of one byte, most significant first: the order in which
`endio_bit` writes a byte into a bit stream. -/
def byteBits (v : Nat) : List Bool :=
  [bit v 7, bit v 6, bit v 5, bit v 4, bit v 3, bit v 2, bit v 1, bit v 0]

/-- The low 4 bits of `v`, most significant first (`write_bits(v & 0x0f, 4)`). -/
def bits4 (v : Nat) : List Bool := [bit v 3, bit v 2, bit v 1, bit v 0]

/-- A byte list as a bit stream. -/
def bytesToBits (l : List Byte) : List Bool := (l.map byteBits).flatten

/-- Value of the first (up to) 8 bits of `l`, the remaining positions padded
with zero bits: the byte a `BitWriter` flushes for these bits. -/
def byteVal (l : List Bool) : Nat :=
  (l.take 8).foldl (fun a b => 2 * a + (if b then 1 else 0)) 0
    * 2 ^ (8 - (l.take 8).length)

/-- Byte stream flushed by a `BitWriter` holding bits `l` (final partial byte
padded with zero bits). -/
def bitsToBytes : List Bool → List Byte
  | [] => []
  | b0 :: b1 :: b2 :: b3 :: b4 :: b5 :: b6 :: b7 :: r =>
      byteVal [b0, b1, b2, b3, b4, b5, b6, b7] :: bitsToBytes r
  | l => [byteVal l]

/-- Read one bit from the stream. -/
def readBit : List Bool → Option (Bool × List Bool)
  | [] => none
  | b :: r => some (b, r)

/-- Read one byte (8 bits, most significant first) from the stream, as
`endio_bit`'s shifted byte read does. -/
def readByteB : List Bool → Option (Nat × List Bool)
  | b7 :: b6 :: b5 :: b4 :: b3 :: b2 :: b1 :: b0 :: r =>
      some (128 * b7.toNat + 64 * b6.toNat + 32 * b5.toNat + 16 * b4.toNat +
            8 * b3.toNat + 4 * b2.toNat + 2 * b1.toNat + b0.toNat, r)
  | _ => none

/-- `BitReader::read_bits(3)`, most significant first. -/
def readBits3 : List Bool → Option (Nat × List Bool)
  | b2 :: b1 :: b0 :: r => some (4 * b2.toNat + 2 * b1.toNat + b0.toNat, r)
  | _ => none

/-- `BitReader::read_bits(4)`, most significant first. -/
def readBits4 : List Bool → Option (Nat × List Bool)
  | b3 :: b2 :: b1 :: b0 :: r =>
      some (8 * b3.toNat + 4 * b2.toNat + 2 * b1.toNat + b0.toNat, r)
  | _ => none

/-- `BitReader::read_bits(5)`, most significant first. -/
def readBits5 : List Bool → Option (Nat × List Bool)
  | b4 :: b3 :: b2 :: b1 :: b0 :: r =>
      some (16 * b4.toNat + 8 * b3.toNat + 4 * b2.toNat + 2 * b1.toNat +
            b0.toNat, r)
  | _ => none

/-- Read a little-endian `u32` (4 bytes) through the bit reader. -/
def readU32B (r : List Bool) : Option (Nat × List Bool) :=
  match readByteB r with
  | none => none
  | some (b0, r) =>
  match readByteB r with
  | none => none
  | some (b1, r) =>
  match readByteB r with
  | none => none
  | some (b2, r) =>
  match readByteB r with
  | none => none
  | some (b3, r) => some (b0 + 256 * b1 + 65536 * b2 + 16777216 * b3, r)

/-- Write a little-endian `u16` through the bit writer. -/
def u16Bits (v : Nat) : List Bool := byteBits (v % 256) ++ byteBits (v / 256 % 256)

/-- Write a little-endian `u32` through the bit writer. -/
def u32Bits (v : Nat) : List Bool :=
  byteBits (v % 256) ++ byteBits (v / 256 % 256) ++
  byteBits (v / 65536 % 256) ++ byteBits (v / 16777216 % 256)

/-! ## Compressed integer codec (`src/raknet/comp.rs`)

The serializer loop over the high bytes is unrolled (size 2 for `u16`,
size 4 for `u32`).  `(v >> 8*k) & 0xff` is rendered as `v / 256^k % 256`,
`v & 0xf0 == 0` as `v / 16 % 16 == 0` and `v & 0x0f` as `v % 16`. -/

/-- `Serialize for Compressed<u16>`. -/
def compW16 (v : Nat) : List Bool :=
  if v / 256 % 256 = 0 then
    true :: (if v / 16 % 16 = 0 then true :: bits4 (v % 16)
             else false :: byteBits (v % 256))
  else
    false :: (byteBits (v % 256) ++ byteBits (v / 256 % 256))

/-- `Serialize for Compressed<u32>`. -/
def compW32 (v : Nat) : List Bool :=
  if v / 16777216 % 256 = 0 then
    true :: (if v / 65536 % 256 = 0 then
      true :: (if v / 256 % 256 = 0 then
        true :: (if v / 16 % 16 = 0 then true :: bits4 (v % 16)
                 else false :: byteBits (v % 256))
      else false :: (byteBits (v % 256) ++ byteBits (v / 256 % 256)))
    else false :: (byteBits (v % 256) ++ byteBits (v / 256 % 256) ++
                   byteBits (v / 65536 % 256)))
  else
    false :: (byteBits (v % 256) ++ byteBits (v / 256 % 256) ++
              byteBits (v / 65536 % 256) ++ byteBits (v / 16777216 % 256))

/-- `Deserialize for Compressed<T>` at `T = u16`.  On a zero leading bit the
remaining bytes `j in i..size` are ORed in at shift `8*j`. -/
def compR16 (r : List Bool) : Option (Nat × List Bool) :=
  match readBit r with
  | none => none
  | some (z0, r) =>
  if !z0 then
    match readByteB r with
    | none => none
    | some (b0, r) =>
    match readByteB r with
    | none => none
    | some (b1, r) => some (b0 + 256 * b1, r)
  else
    match readBit r with
    | none => none
    | some (z, r) => if z then readBits4 r else readByteB r

/-- `Deserialize for Compressed<T>` at `T = u32`.  Note: with `i` high bytes
flagged zero, the decoder ORs the bytes it reads in at shifts `8*j` for
`j in i..size`, exactly as the source does. -/
def compR32 (r : List Bool) : Option (Nat × List Bool) :=
  match readBit r with
  | none => none
  | some (z0, r) =>
  if !z0 then
    match readByteB r with
    | none => none
    | some (b0, r) =>
    match readByteB r with
    | none => none
    | some (b1, r) =>
    match readByteB r with
    | none => none
    | some (b2, r) =>
    match readByteB r with
    | none => none
    | some (b3, r) => some (b0 + 256 * b1 + 65536 * b2 + 16777216 * b3, r)
  else
    match readBit r with
    | none => none
    | some (z1, r) =>
    if !z1 then
      match readByteB r with
      | none => none
      | some (b0, r) =>
      match readByteB r with
      | none => none
      | some (b1, r) =>
      match readByteB r with
      | none => none
      | some (b2, r) => some (256 * b0 + 65536 * b1 + 16777216 * b2, r)
    else
      match readBit r with
      | none => none
      | some (z2, r) =>
      if !z2 then
        match readByteB r with
        | none => none
        | some (b0, r) =>
        match readByteB r with
        | none => none
        | some (b1, r) => some (65536 * b0 + 16777216 * b1, r)
      else
        match readBit r with
        | none => none
        | some (z3, r) => if z3 then readBits4 r else readByteB r

/-! ## Round-trip lemmas for the compressed codec -/

theorem toNat_bit (v k : Nat) : (bit v k).toNat = v / 2 ^ k % 2 := by
  unfold bit
  rcases Nat.mod_two_eq_zero_or_one (v / 2 ^ k) with h | h <;> simp [h]

theorem readByteB_byteBits (v : Nat) (r : List Bool) :
    readByteB (byteBits v ++ r) = some (v % 256, r) := by
  simp only [byteBits, List.cons_append, List.nil_append, readByteB, toNat_bit]
  norm_num
  omega

theorem readBits4_bits4 (v : Nat) (r : List Bool) :
    readBits4 (bits4 v ++ r) = some (v % 16, r) := by
  simp only [bits4, List.cons_append, List.nil_append, readBits4, toNat_bit]
  norm_num
  omega

/-- The `u16` compressed codec round-trips on every `u16` value, with any
trailing bits untouched. -/
theorem compR16_compW16 (v : Nat) (hv : v < 65536) (r : List Bool) :
    compR16 (compW16 v ++ r) = some (v, r) := by
  unfold compW16 compR16
  by_cases h1 : v / 256 % 256 = 0
  · by_cases h2 : v / 16 % 16 = 0
    · simp only [h1, if_true, h2, List.cons_append, readBit, readBits4_bits4]
      simp
      omega
    · simp only [h1, if_true, h2, if_false, List.cons_append, readBit,
        readByteB_byteBits]
      simp
      omega
  · simp only [h1, if_false, List.cons_append, List.append_assoc, readBit,
      readByteB_byteBits]
    simp
    omega

/-- Concrete encodings from the spec: `encode_u16(14) == 0xF8`. -/
theorem compW16_14 : bitsToBytes (compW16 14) = [0xF8] := by decide

/-- `encode_u16(47975) == 0x33 0xDD 0x80`. -/
theorem compW16_47975 : bitsToBytes (compW16 47975) = [0x33, 0xDD, 0x80] := by
  decide

/-- `encode_u32(14) == 0xFE`. -/
theorem compW32_14 : bitsToBytes (compW32 14) = [0xFE] := by decide

/-- `encode_u32(3925837394) == 0x29 0x43 0x7F 0xF4 0x80`. -/
theorem compW32_3925837394 :
    bitsToBytes (compW32 3925837394) = [0x29, 0x43, 0x7F, 0xF4, 0x80] := by
  decide

/-- C5: the claim states that for every `u32` value decoding the compressed
encoding yields the value again.  The code violates this: the `u32` decoder
ORs the bytes it reads in at shifts `8*j` for `j in i..size` while the
encoder wrote the value's low bytes at shifts `0..8*(size-i-1)`, so for
`256 ≤ v < 2^24` the round-trip fails.  At the failing input `v = 256` the
encoding decodes to `16777216` (= `2^24`), not `256`.  (The `u16` round-trip
and all four concrete encodings of the claim do hold, see `compR16_compW16`
and `compW16_14` etc.) -/
theorem c5_comp_u32_roundtrip_fails :
    compR32 (compW32 256) = some (16777216, []) ∧ (16777216 : Nat) ≠ 256 :=
  ⟨by decide, by decide⟩

/-! ## Range list (`src/raknet/rangelist.rs`) -/

/-- An inclusive `[min,max]` range of `u32`. -/
structure Range where
  min : Nat
  max : Nat
deriving DecidableEq, Repr

/-- A range list is a vector of ranges. -/
abbrev RangeList := List Range

/-- `RangeList::new`. -/
def RangeList.new : RangeList := []

/-- `RangeList::insert`, translated from the imperative walk over the ranges.
The `try_remove` step of the source (set when `range.max == item - 1` extends
a non-final range) immediately inspects the following range and removes it
when its `min` equals `item - 1`; this is inlined into the extend case.
`Nat` subtraction: `item - 1` is only reached with `item ≥ 1` (an item with
`range.min ≤ item = 0` satisfies `range.max ≥ item` and returns earlier), and
`range.min - item` only with `range.min > item`, so no wrapping divergence. -/
def RangeList.insert (l : RangeList) (item : Nat) : RangeList :=
  match l with
  | [] => [⟨item, item⟩]
  | rg :: rest =>
    if rg.min ≤ item then
      if rg.max ≥ item then rg :: rest
      else if rg.max = item - 1 then
        match rest with
        | [] => [⟨rg.min, item⟩]
        | r2 :: rest2 =>
          if r2.min = item - 1 then ⟨rg.min, item⟩ :: rest2
          else ⟨rg.min, item⟩ :: r2 :: rest2
      else rg :: RangeList.insert rest item
    else
      if rg.min - item = 1 then ⟨item, rg.max⟩ :: rest
      else ⟨item, item⟩ :: rg :: rest

/-- `RangeList::len`: sum of `max - min + 1` over the ranges. -/
def RangeList.len (l : RangeList) : Nat :=
  (l.map (fun r => r.max - r.min + 1)).sum

/-- `RangeList::is_empty`. -/
def RangeList.isEmptyR (l : RangeList) : Bool := l.isEmpty

/-- Items yielded by one range (`min..=max`, ascending; empty when
`min > max`). -/
def rangeItems (r : Range) : List Nat :=
  if r.min ≤ r.max then List.range' r.min (r.max - r.min + 1) else []

/-- `RangeList::into_iter` (the `Items` iterator): all items in range order. -/
def RangeList.items (l : RangeList) : List Nat := (l.map rangeItems).flatten

/-- Insert a whole list of items in order (driver for concrete runs). -/
def RangeList.insertAll (l : RangeList) (xs : List Nat) : RangeList :=
  xs.foldl RangeList.insert l

/-- `Serialize for &RangeList`: compressed-u16 count, then per range one
"single" bit, 32-bit `min`, and `max` when not single. -/
def RangeList.serializeBits (l : RangeList) : List Bool :=
  compW16 (l.length % 65536) ++
  (l.map (fun r =>
    (decide (r.min = r.max)) ::
      (u32Bits r.min ++ (if r.min = r.max then [] else u32Bits r.max)))).flatten

/-- C2: the claim states that insert-reachable range lists are sorted with
`r[i].max + 1 < r[i+1].min` (non-adjacent), and that inserting `range.max + 1`
merges with a following range starting at `item + 1`.  The code violates
this: its merge test compares the next range's `min` with `item - 1` instead
of `item + 1`, so the merge never fires; inserting `0`, `2`, `1` into a new
list leaves the adjacent ranges `[0,1], [2,2]`. -/
theorem c2_rangelist_adjacency_violated :
    RangeList.insertAll RangeList.new [0, 2, 1] = [⟨0, 1⟩, ⟨2, 2⟩] ∧
    ¬ ((1 : Nat) + 1 < 2) :=
  ⟨by decide, by decide⟩

/-- C3: the claim states that iterating an insert-built range list yields each
distinct inserted value exactly once in ascending order, that `len` is the
distinct count, and that inserting an already-contained value is a no-op.
The code violates all three: after inserting `0`, `2`, `1` the list is
`[0,1], [2,2]`; inserting the already-contained `2` then extends the first
range to `[0,2]`, giving overlapping ranges whose iteration yields `2` twice
and whose `len` is `4` though only three distinct values were inserted. -/
theorem c3_rangelist_set_semantics_violated :
    RangeList.insertAll RangeList.new [0, 2, 1, 2] = [⟨0, 2⟩, ⟨2, 2⟩] ∧
    RangeList.items [⟨0, 2⟩, ⟨2, 2⟩] = [0, 1, 2, 2] ∧
    RangeList.len [⟨0, 2⟩, ⟨2, 2⟩] = 4 ∧
    RangeList.insertAll RangeList.new [0, 2, 1, 2] ≠
      RangeList.insertAll RangeList.new [0, 2, 1] :=
  ⟨by decide, by decide, by decide, by decide⟩

/-- The range-list serializer reproduces the byte vector pinned by the
source's own `serialize` test (`rangelist.rs`, `DATA`). -/
theorem rangeList_serialize_test_vector :
    bitsToBytes (RangeList.serializeBits [⟨1, 3⟩, ⟨5, 6⟩, ⟨8, 8⟩, ⟨14, 17⟩]) =
      [0xD0, 0x02, 0x00, 0x00, 0x00, 0x06, 0x00, 0x00, 0x00, 0x05, 0x00, 0x00,
       0x00, 0x06, 0x00, 0x00, 0x00, 0x84, 0x00, 0x00, 0x00, 0x03, 0x80, 0x00,
       0x00, 0x04, 0x40, 0x00, 0x00, 0x00] := by
  decide

/-! ## LEG packet codec (`src/raknet/packet.rs`) -/

/-- `ReliabilityData`: reliability tag plus ordering index where present. -/
inductive ReliabilityData
  | Unreliable
  | UnreliableSequenced (ord : Nat)
  | Reliable
  | ReliableOrdered (ord : Nat)
deriving DecidableEq, Repr

/-- `Reliability` (the abstract packet's tag). -/
inductive Reliability
  | Unreliable
  | UnreliableSequenced
  | Reliable
  | ReliableOrdered
deriving DecidableEq, Repr

/-- `From<ReliabilityData> for Reliability`. -/
def Reliability.ofData : ReliabilityData → Reliability
  | .Unreliable => .Unreliable
  | .UnreliableSequenced _ => .UnreliableSequenced
  | .Reliable => .Reliable
  | .ReliableOrdered _ => .ReliableOrdered

/-- `SplitPacketInfo`. -/
structure SplitPacketInfo where
  id : Nat
  index : Nat
  count : Nat
deriving DecidableEq, Repr

/-- A fully decoded LEG sub-packet. -/
structure RaknetPacket where
  message_number : Nat
  rel_data : ReliabilityData
  split_packet_info : Option SplitPacketInfo
  data : List Byte
deriving DecidableEq, Repr

/-- The abstract packet exchanged with the bridge (`bridge.rs`). -/
structure Packet where
  reliability : Reliability
  data : List Byte
deriving DecidableEq, Repr

/-- `From<RaknetPacket> for Packet`. -/
def Packet.ofRaknet (p : RaknetPacket) : Packet :=
  ⟨Reliability.ofData p.rel_data, p.data⟩

/-- `Deserialize for ReliabilityData`: 3-bit id; for ids 1 and 3 a 5-bit
ordering channel that must be 0 (assertion failure modelled as `none`) and a
32-bit ordinal; ids above 3 are a fatal error (`none`). -/
def readRelData (r : List Bool) : Option (ReliabilityData × List Bool) :=
  match readBits3 r with
  | none => none
  | some (id, r) =>
    if id = 0 then some (.Unreliable, r)
    else if id = 1 then
      match readBits5 r with
      | none => none
      | some (ch, r) =>
        if ch = 0 then
          match readU32B r with
          | none => none
          | some (ord, r) => some (.UnreliableSequenced ord, r)
        else none
    else if id = 2 then some (.Reliable, r)
    else if id = 3 then
      match readBits5 r with
      | none => none
      | some (ch, r) =>
        if ch = 0 then
          match readU32B r with
          | none => none
          | some (ord, r) => some (.ReliableOrdered ord, r)
        else none
    else none

/-- `write_bits(v, 3)`, most significant of the low 3 bits first. -/
def bits3 (v : Nat) : List Bool := [bit v 2, bit v 1, bit v 0]

/-- `write_bits(v, 5)`. -/
def bits5 (v : Nat) : List Bool := [bit v 4, bit v 3, bit v 2, bit v 1, bit v 0]

/-- `Serialize for &ReliabilityData`. -/
def writeRelData : ReliabilityData → List Bool
  | .Unreliable => bits3 0
  | .UnreliableSequenced ord => bits3 1 ++ bits5 0 ++ u32Bits ord
  | .Reliable => bits3 2
  | .ReliableOrdered ord => bits3 3 ++ bits5 0 ++ u32Bits ord

/-- Read a little-endian `u16` (2 bytes) through the bit reader. -/
def readU16B (r : List Bool) : Option (Nat × List Bool) :=
  match readByteB r with
  | none => none
  | some (b0, r) =>
  match readByteB r with
  | none => none
  | some (b1, r) => some (b0 + 256 * b1, r)

/-- `Deserialize for SplitPacketInfo`: `u16` id, compressed-u32 index and
count. -/
def readSplitPacketInfo (r : List Bool) : Option (SplitPacketInfo × List Bool) :=
  match readU16B r with
  | none => none
  | some (id, r) =>
  match compR32 r with
  | none => none
  | some (index, r) =>
  match compR32 r with
  | none => none
  | some (count, r) => some (⟨id, index, count⟩, r)

/-- `Serialize for &SplitPacketInfo`. -/
def writeSplitPacketInfo (i : SplitPacketInfo) : List Bool :=
  u16Bits i.id ++ compW32 i.index ++ compW32 i.count

/-- The `has_split` bit followed, when set, by the split info. -/
def readSplitOpt (r : List Bool) :
    Option (Option SplitPacketInfo × List Bool) :=
  match readBit r with
  | none => none
  | some (false, r) => some (none, r)
  | some (true, r) =>
    match readSplitPacketInfo r with
    | none => none
    | some (si, r) => some (some si, r)

/-- `BitReader::align`: skip to the next byte boundary.  On a stream whose
total length is a whole number of bytes (every datagram) the number of bits
to skip equals `remaining % 8`. -/
def alignReader (r : List Bool) : List Bool := r.drop (r.length % 8)

/-- `BitWriter::align`: pad the bits written so far with zero bits up to the
next byte boundary. -/
def alignW (w : List Bool) : List Bool :=
  w ++ List.replicate ((8 - w.length % 8) % 8) false

/-- Read `n` whole bytes through the bit reader (`read_exact`). -/
def readBytesB : Nat → List Bool → Option (List Byte × List Bool)
  | 0, r => some ([], r)
  | n + 1, r =>
    match readByteB r with
    | none => none
    | some (b, r) =>
    match readBytesB n r with
    | none => none
    | some (bs, r) => some (b :: bs, r)

/-- `Deserialize for RaknetPacket`: message number, reliability, optional
split info, compressed-u16 bit length, align, then `length / 8` payload
bytes. -/
def readRaknetPacket (r : List Bool) : Option (RaknetPacket × List Bool) :=
  match readU32B r with
  | none => none
  | some (mn, r) =>
  match readRelData r with
  | none => none
  | some (rd, r) =>
  match readSplitOpt r with
  | none => none
  | some (si, r) =>
  match compR16 r with
  | none => none
  | some (length, r) =>
  match readBytesB (length / 8) (alignReader r) with
  | none => none
  | some (data, r) => some (⟨mn, rd, si, data⟩, r)

/-- `Serialize for &RaknetPacket`, appended to the bits `w` already in the
writer (the alignment before the payload depends on the absolute bit
position).  The bit length field is `data.len() as u16 * 8`, a `u16`
computation that wraps. -/
def writeRaknetPacket (w : List Bool) (p : RaknetPacket) : List Bool :=
  alignW (w ++ u32Bits p.message_number ++ writeRelData p.rel_data ++
    [p.split_packet_info.isSome] ++
    (match p.split_packet_info with
     | none => []
     | some si => writeSplitPacketInfo si) ++
    compW16 (p.data.length % 65536 * 8 % 65536)) ++ bytesToBits p.data

theorem readBytesB_length :
    ∀ (n : Nat) (r : List Bool) (bs : List Byte) (rest : List Bool),
      readBytesB n r = some (bs, rest) → bs.length = n := by
  intro n
  induction n with
  | zero =>
    intro r bs rest h
    simp only [readBytesB, Option.some.injEq, Prod.mk.injEq] at h
    simp [← h.1]
  | succ k ih =>
    intro r bs rest h
    unfold readBytesB at h
    split at h
    · exact Option.noConfusion h
    next b r1 _ =>
      split at h
      · exact Option.noConfusion h
      next bs1 r2 h2 =>
        simp only [Option.some.injEq, Prod.mk.injEq] at h
        have := ih _ _ _ h2
        simp [← h.1, this]

/-- C4 (counterexample): a sub-packet whose compressed-u16 length field
decodes to `L = 9` bits.  The claim says the decoder reads `ceil(9/8) = 2`
payload bytes; the code computes `length / 8` and reads only 1 byte, leaving
the trailing partial byte unread in the stream. -/
theorem c4_ceil_counterexample :
    readRaknetPacket (bytesToBits [0, 0, 0, 0, 0x0E, 0x40, 0xAB, 0xCD]) =
      some (⟨0, .Unreliable, none, [0xAB]⟩, byteBits 0xCD) ∧
    compR16 ((bytesToBits [0, 0, 0, 0, 0x0E, 0x40, 0xAB, 0xCD]).drop 36) =
      some (9, (bytesToBits [0, 0, 0, 0, 0x0E, 0x40, 0xAB, 0xCD]).drop 42) ∧
    ([0xAB] : List Byte).length ≠ (9 + 7) / 8 :=
  ⟨by decide, by decide, by decide⟩

/-- C4 (amended): for every decodable LEG sub-packet whose compressed-u16
length field decodes to `L` (payload length in bits), the decoder, after
aligning to the next byte boundary, reads exactly `L / 8` (floor, not ceil)
payload bytes into the packet's data; when `L` is not a multiple of 8 the
trailing partial byte is NOT read. -/
theorem c4_payload_floor_bytes (r : List Bool) (p : RaknetPacket)
    (rest : List Bool) (h : readRaknetPacket r = some (p, rest)) :
    ∃ mn r1 rd r2 si r3 L r4,
      readU32B r = some (mn, r1) ∧ readRelData r1 = some (rd, r2) ∧
      readSplitOpt r2 = some (si, r3) ∧ compR16 r3 = some (L, r4) ∧
      p.data.length = L / 8 ∧
      readBytesB (L / 8) (alignReader r4) = some (p.data, rest) := by
  unfold readRaknetPacket at h
  repeat' split at h
  any_goals exact Option.noConfusion h
  rename_i mn r1 h1 _ rd r2 h2 _ si r3 h3 _ L r4 h4 _ data r5 h5
  simp only [Option.some.injEq, Prod.mk.injEq] at h
  obtain ⟨hp, hrest⟩ := h
  subst hrest
  refine ⟨mn, r1, rd, r2, si, r3, L, r4, h1, h2, h3, h4, ?_, ?_⟩
  · rw [← hp]
    exact readBytesB_length _ _ _ _ h5
  · rw [← hp]
    exact h5

/-- Witness for `c4_payload_floor_bytes` at the 8-byte example datagram. -/
theorem c4_payload_floor_bytes_witness :
    ∃ mn r1 rd r2 si r3 L r4,
      readU32B (bytesToBits [0, 0, 0, 0, 0x0E, 0x40, 0xAB, 0xCD]) =
        some (mn, r1) ∧
      readRelData r1 = some (rd, r2) ∧ readSplitOpt r2 = some (si, r3) ∧
      compR16 r3 = some (L, r4) ∧
      (RaknetPacket.mk 0 .Unreliable none [0xAB]).data.length = L / 8 ∧
      readBytesB (L / 8) (alignReader r4) =
        some ((RaknetPacket.mk 0 .Unreliable none [0xAB]).data,
          byteBits 0xCD) :=
  c4_payload_floor_bytes (bytesToBits [0, 0, 0, 0, 0x0E, 0x40, 0xAB, 0xCD])
    ⟨0, .Unreliable, none, [0xAB]⟩ (byteBits 0xCD) (by decide)

/-! ## LEG receive engine (`src/raknet/recv.rs`)

`HashMap`s are modelled as association lists with unique keys: lookup finds
the entry with the key, insert replaces any previous entry, remove erases
it.  Only lookup/insert/remove are used by the engine, so the list order is
not observable. -/

/-- `u32` modulus. -/
def U32LIM : Nat := 4294967296

/-- `u32::wrapping_add(1)`. -/
def wadd1 (a : Nat) : Nat := (a + 1) % U32LIM

/-- `u32` `wrapping_sub`. -/
def wsub (a b : Nat) : Nat := (a % U32LIM + U32LIM - b % U32LIM) % U32LIM

/-- `u32::max_value() / 2` = `2^31 - 1`, the staleness/window threshold the
source compares against. -/
def HALF_U32_MAX : Nat := 4294967295 / 2

/-- Association-list lookup (`HashMap::get` / `Entry` probe). -/
def mapLookup {α : Type} (k : Nat) : List (Nat × α) → Option α
  | [] => none
  | (k', v) :: m => if k' = k then some v else mapLookup k m

/-- Remove the entry with key `k` (`HashMap::remove` / `remove_entry`).
Stated recursively; on the unique-key lists the engine maintains this is the
removal of the one entry, and on arbitrary lists it is lookup-equivalent to
it. -/
def mapErase {α : Type} (k : Nat) : List (Nat × α) → List (Nat × α)
  | [] => []
  | e :: m => if e.1 = k then mapErase k m else e :: mapErase k m

/-- Insert, replacing any entry with the same key (`HashMap::insert`). -/
def mapInsert {α : Type} (k : Nat) (v : α) (m : List (Nat × α)) :
    List (Nat × α) :=
  (k, v) :: mapErase k m

/-- `ReceivePart` state. -/
structure ReceivePart where
  unrel_seq_index : Nat
  rel_ord_index : Nat
  out_of_order_packets : List (Nat × Packet)
  split_packet_queue : List (Nat × List (Option (List Byte)))
deriving DecidableEq, Repr

/-- `ReceivePart::default()`. -/
def ReceivePart.default : ReceivePart := ⟨0, 0, [], []⟩

/-- The release loop after an in-order `ReliableOrdered` delivery: repeatedly
remove `out_of_order_packets[index]` while present.  The structural fuel,
instantiated with the map size at the call site, bounds the iterations: each
one removes an entry, exactly the reason the source loop terminates. -/
def drainFuel : Nat → Nat → List (Nat × Packet) →
    List Packet × Nat × List (Nat × Packet)
  | 0, idx, oo => ([], idx, oo)
  | fuel + 1, idx, oo =>
    match mapLookup idx oo with
    | none => ([], idx, oo)
    | some p =>
      let r := drainFuel fuel (wadd1 idx) (mapErase idx oo)
      (p :: r.1, r.2)

/-- The release loop, with adequate fuel. -/
def drain (idx : Nat) (oo : List (Nat × Packet)) :
    List Packet × Nat × List (Nat × Packet) :=
  drainFuel (oo.length + 1) idx oo

/-- `MessageType::DisconnectNotification as u8` (`bridge.rs`). -/
def DisconnectNotificationId : Nat := 19

/-- Split-packet phase of one iteration: `none` where the source panics
(`assert!(split.count > 1)`, out-of-range vector index); `some (.inl s)`
when the iteration `continue`s with an updated queue and no delivery;
`some (.inr (s, data))` when processing proceeds with the (possibly
reassembled) payload. -/
def splitPhase (s : ReceivePart) (pkt : RaknetPacket) :
    Option (ReceivePart ⊕ (ReceivePart × List Byte)) :=
  match pkt.split_packet_info with
  | none => some (.inr (s, pkt.data))
  | some split =>
    if split.count ≤ 1 then none
    else
      match mapLookup split.id s.split_packet_queue with
      | none =>
        if split.index < split.count then
          let parts := (List.replicate split.count
            (none : Option (List Byte))).set split.index (some pkt.data)
          let q := mapInsert split.id parts s.split_packet_queue
          some (.inl { s with split_packet_queue := q })
        else none
      | some parts =>
        if split.index < parts.length then
          let parts := parts.set split.index (some pkt.data)
          if parts.all (fun p => p.isSome) then
            let q := mapErase split.id s.split_packet_queue
            some (.inr ({ s with split_packet_queue := q },
              (parts.map (fun p => p.getD [])).flatten))
          else
            let q := mapInsert split.id parts s.split_packet_queue
            some (.inl { s with split_packet_queue := q })
        else none

/-- One iteration of the body of `process_incoming_packets`: ack bookkeeping
for `Reliable`/`ReliableOrdered`, split reassembly, disconnect detection,
then ordering/dedup by reliability.  Returns the updated state, acks, closed
flag and the packets delivered by this iteration in order (`none` where the
source panics). -/
def processOne (s : ReceivePart) (acks : RangeList) (closed : Bool)
    (pkt : RaknetPacket) :
    Option (ReceivePart × RangeList × Bool × List Packet) :=
  let acks := match pkt.rel_data with
    | .Reliable => RangeList.insert acks pkt.message_number
    | .ReliableOrdered _ => RangeList.insert acks pkt.message_number
    | _ => acks
  match splitPhase s pkt with
  | none => none
  | some (.inl s) => some (s, acks, closed, [])
  | some (.inr (s, data)) =>
    if data.head? = some DisconnectNotificationId then
      some (s, acks, true, [])
    else
      match pkt.rel_data with
      | .UnreliableSequenced ord =>
        if wsub ord s.unrel_seq_index < HALF_U32_MAX then
          some ({ s with unrel_seq_index := wadd1 ord }, acks, closed,
            [⟨.UnreliableSequenced, data⟩])
        else
          some (s, acks, closed, [])
      | .ReliableOrdered ord =>
        if ord = s.rel_ord_index then
          let d := drain (wadd1 s.rel_ord_index) s.out_of_order_packets
          some ({ s with rel_ord_index := d.2.1, out_of_order_packets := d.2.2 },
            acks, closed, ⟨.ReliableOrdered, data⟩ :: d.1)
        else if wsub ord s.rel_ord_index < HALF_U32_MAX then
          let oo := mapInsert ord ⟨.ReliableOrdered, data⟩ s.out_of_order_packets
          some ({ s with out_of_order_packets := oo }, acks, closed, [])
        else
          some (s, acks, closed, [])
      | rel => some (s, acks, closed, [⟨Reliability.ofData rel, data⟩])

/-- `ReceivePart::process_incoming_packets` over a batch, threading state and
concatenating the delivered packets. -/
def processIncoming (s : ReceivePart) (acks : RangeList) (closed : Bool) :
    List RaknetPacket → Option (ReceivePart × RangeList × Bool × List Packet)
  | [] => some (s, acks, closed, [])
  | pkt :: rest =>
    match processOne s acks closed pkt with
    | none => none
    | some (s, acks, closed, out) =>
      match processIncoming s acks closed rest with
      | none => none
      | some (s, acks, closed, out') => some (s, acks, closed, out ++ out')

/-! ## NEW connection, UDP receive (`src/tcpudp/mod.rs`) -/

/-- Processing of one UDP datagram by `Connection::receive_udp`: tag byte
`0x00` emits `Unreliable`, tag `0x01` reads a 4-byte little-endian sequence
number and applies the staleness filter, any other tag is a fatal error
(source: `panic!`), modelled as `none`.  `none` also covers datagrams too
short for the reads (where the source reads stale bytes of the shared global
buffer past the datagram, or panics slicing `BUF[5..len]`).  Returns the
emitted packet (if any) and the updated `seq_num_recv`. -/
def receiveUdpDatagram (seq_num_recv : Nat) (dgram : List Byte) :
    Option (Option Packet × Nat) :=
  match dgram with
  | rel :: rest =>
    if rel = 0 then some (some ⟨.Unreliable, rest⟩, seq_num_recv)
    else if rel = 1 then
      match rest with
      | b0 :: b1 :: b2 :: b3 :: payload =>
        let seq_num := b0 + 256 * b1 + 65536 * b2 + 16777216 * b3
        if wsub seq_num seq_num_recv < HALF_U32_MAX then
          some (some ⟨.UnreliableSequenced, payload⟩, wadd1 seq_num)
        else some (none, seq_num_recv)
      | _ => none
    else none
  | [] => none

/-! ## LEG send engine (`src/raknet/send.rs`) -/

/-- `MAX_PACKET_SIZE = MTU_SIZE - UDP_HEADER_SIZE = 1228 - 28`. -/
def MAX_PACKET_SIZE : Nat := 1228 - 28

/-- `SendPart` counters (socket and address are I/O, not modelled; sending is
modelled as returning the datagram byte strings). -/
structure SendPart where
  message_number : Nat
  split_packet_index : Nat
  unrel_seq_index : Nat
  rel_ord_index : Nat
deriving DecidableEq, Repr

/-- `SendPart::new`: all counters start at 0. -/
def SendPart.new : SendPart := ⟨0, 0, 0, 0⟩

/-- `SendPart::message_number`: consume the `u32` counter (wrapping). -/
def SendPart.messageNumber (s : SendPart) : Nat × SendPart :=
  (s.message_number, { s with message_number := wadd1 s.message_number })

/-- `SendPart::split_packet_index`: consume the `u16` counter (wrapping). -/
def SendPart.splitPacketIndex (s : SendPart) : Nat × SendPart :=
  (s.split_packet_index,
   { s with split_packet_index := (s.split_packet_index + 1) % 65536 })

/-- `SendPart::rel_data`: map a reliability to its `ReliabilityData`,
consuming the matching ordinal counter. -/
def SendPart.relData (s : SendPart) : Reliability → ReliabilityData × SendPart
  | .Unreliable => (.Unreliable, s)
  | .UnreliableSequenced =>
    (.UnreliableSequenced s.unrel_seq_index,
     { s with unrel_seq_index := wadd1 s.unrel_seq_index })
  | .Reliable => (.Reliable, s)
  | .ReliableOrdered =>
    (.ReliableOrdered s.rel_ord_index,
     { s with rel_ord_index := wadd1 s.rel_ord_index })

/-- `SendPart::header_len` in bytes: bit count of the sub-packet header,
divided by 8 plus 1. -/
def headerLen (rel : Reliability) (is_split_packet : Bool) : Nat :=
  let len := 32 + 3 +
    (if rel = .UnreliableSequenced ∨ rel = .ReliableOrdered then 5 + 32 else 0)
    + 1 +
    (if is_split_packet then 16 + 32 + 32 + 16 else 0)
  len / 8 + 1

/-- `slice::chunks(n)`: consecutive chunks of `n` elements, last possibly
shorter.  Structural fuel (instantiated with the list length) replaces the
source's implicit recursion; for `n ≥ 1` and fuel `≥ l.length` it yields all
chunks. -/
def chunksFuel {α : Type} (n : Nat) : Nat → List α → List (List α)
  | 0, _ => []
  | _, [] => []
  | fuel + 1, l => l.take n :: chunksFuel n fuel (l.drop n)

/-- `l.chunks(n)` with adequate fuel. -/
def chunksOf {α : Type} (n : Nat) (l : List α) : List (List α) :=
  chunksFuel n l.length l

/-- Per-chunk sub-packet construction: each chunk takes a fresh message
number, the shared split id/count and its index `i` (`as u32`, wrapping). -/
def buildChunks (rel_data : ReliabilityData) (split_id count : Nat) :
    SendPart → Nat → List (List Byte) → SendPart × List RaknetPacket
  | s, _, [] => (s, [])
  | s, i, c :: cs =>
    let m := s.messageNumber
    let r := buildChunks rel_data split_id count m.2 (i + 1) cs
    (r.1, ⟨m.1, rel_data, some ⟨split_id, i % U32LIM, count⟩, c⟩ :: r.2)

/-- `process_outgoing_packets` for a single abstract packet: consume the
reliability ordinal, then either split into chunks of
`MAX_PACKET_SIZE - header_len(rel, true)` bytes (when the unsplit packet
would exceed `MAX_PACKET_SIZE`) or emit one unsplit sub-packet. -/
def processOutgoingOne (s : SendPart) (packet : Packet) :
    SendPart × List RaknetPacket :=
  let rd := s.relData packet.reliability
  let s := rd.2
  if headerLen packet.reliability false + packet.data.length >
      MAX_PACKET_SIZE then
    let sp := s.splitPacketIndex
    let s := sp.2
    let chunk_size := MAX_PACKET_SIZE - headerLen packet.reliability true
    let chunks := chunksOf chunk_size packet.data
    let count := chunks.length % U32LIM
    buildChunks rd.1 sp.1 count s 0 chunks
  else
    let m := s.messageNumber
    (m.2, [⟨m.1, rd.1, none, packet.data⟩])

/-- `SendPart::process_outgoing_packets` over a batch. -/
def processOutgoing (s : SendPart) :
    List Packet → SendPart × List RaknetPacket
  | [] => (s, [])
  | p :: ps =>
    let one := processOutgoingOne s p
    let rest := processOutgoing one.1 ps
    (rest.1, one.2 ++ rest.2)

/-- `SendPart::write_acks`: write the `has_acks` bit and, when set, the
remote clock echo and the serialized range list; the acks are cleared
unconditionally.  Returns the extended writer bits and the cleared acks. -/
def writeAcks (w : List Bool) (acks : RangeList) (remote_system_time : Nat) :
    List Bool × RangeList :=
  let has_acks := !acks.isEmpty
  let w := w ++ [has_acks]
  let w := if has_acks then
      w ++ u32Bits remote_system_time ++ RangeList.serializeBits acks
    else w
  (w, [])

/-- `SendPart::send_packet`: one datagram holding the ack header, a zero
`has_remote_system_time` bit and one serialized sub-packet. -/
def sendPacketDatagram (p : RaknetPacket) (acks : RangeList) (time : Nat) :
    List Byte × RangeList :=
  let wa := writeAcks [] acks time
  (bitsToBytes (writeRaknetPacket (wa.1 ++ [false]) p), wa.2)

/-- `SendPart::send_acks`: nothing when there are no pending acks, otherwise
one datagram holding only the ack header (note: no `has_remote_system_time`
bit and no sub-packet). -/
def sendAcksDatagrams (acks : RangeList) (time : Nat) :
    List (List Byte) × RangeList :=
  if acks.isEmpty then ([], acks)
  else
    let wa := writeAcks [] acks time
    ([bitsToBytes wa.1], wa.2)

/-- The `for rak_packet in rak_packets` loop of `send_packets`: one datagram
per sub-packet, threading the pending acks (cleared by the first write). -/
def sendLoop (acks : RangeList) (time : Nat) :
    List RaknetPacket → List (List Byte) × RangeList
  | [] => ([], acks)
  | p :: ps =>
    let d := sendPacketDatagram p acks time
    let rest := sendLoop d.2 time ps
    (d.1 :: rest.1, rest.2)

/-- `SendPart::send_packets`: process the outgoing packets; if none resulted,
emit the ack-only datagram (when acks are pending); then emit one datagram
per sub-packet.  Returns the final counters, pending acks and the datagrams
sent, in order. -/
def sendPackets (s : SendPart) (packets : List Packet) (acks : RangeList)
    (remote_system_time : Nat) :
    SendPart × RangeList × List (List Byte) :=
  let po := processOutgoing s packets
  let ackOnly := if po.2.isEmpty then sendAcksDatagrams acks remote_system_time
    else ([], acks)
  let rest := sendLoop ackOnly.2 remote_system_time po.2
  (po.1, rest.2, ackOnly.1 ++ rest.1)

/-! ## LEG connection (`src/raknet/connection.rs`) -/

/-- I/O error kinds surfaced by the modelled paths. -/
inductive IOErrorKind
  | ConnectionAborted
deriving DecidableEq, Repr

/-- `Connection` state (the socket and peer address are I/O handles and not
modelled; sends return the emitted datagrams instead). -/
structure RakConnection where
  closed : Bool
  remote_system_time : Nat
  acks : RangeList
  recvPart : ReceivePart
  sendPart : SendPart
deriving DecidableEq, Repr

/-- `Connection::send`: fails with `ConnectionAborted` once `closed` is set,
before anything is emitted; otherwise defers to `send_packets`. -/
def RakConnection.send (c : RakConnection) (packets : List Packet) :
    Except IOErrorKind (RakConnection × List (List Byte)) :=
  if c.closed then .error .ConnectionAborted
  else
    let r := sendPackets c.sendPart packets c.acks c.remote_system_time
    .ok ({ c with sendPart := r.1, acks := r.2.1 }, r.2.2)

/-! ## C1: sequenced staleness window -/

/-- C1 (counterexample): the claim accepts exactly when
`(ord - index) mod 2^32 < 2^31`, including the boundary `delta = 2^31 - 1`.
The code compares against `u32::MAX / 2 = 2^31 - 1`, so at
`index = 0, ord = 2147483647` (`delta = 2^31 - 1 < 2^31`) the claim says
accept but both engines drop the packet and leave the index unchanged. -/
theorem c1_boundary_counterexample :
    wsub 2147483647 0 < 2 ^ 31 ∧
    processOne ReceivePart.default [] false
      ⟨0, .UnreliableSequenced 2147483647, none, [1]⟩ =
      some (ReceivePart.default, [], false, []) ∧
    receiveUdpDatagram 0 [1, 0xFF, 0xFF, 0xFF, 0x7F, 0xAB] = some (none, 0) :=
  ⟨by decide, by decide, by decide⟩

/-- C1 (amended): in the LEG receive engine an `UnreliableSequenced`
sub-packet with ordinal `ord` is accepted (and `unrel_seq_index` set to
`ord + 1 mod 2^32`) iff `(ord - unrel_seq_index) mod 2^32 < 2^31 - 1`
(i.e. strictly less than `u32::MAX / 2`), and dropped as stale otherwise;
likewise in the NEW connection's UDP receive a tag-`0x01` datagram with
sequence number `seq` is emitted as `UnreliableSequenced` (and
`seq_num_recv` set to `seq + 1 mod 2^32`) iff
`(seq - seq_num_recv) mod 2^32 < 2^31 - 1`, and discarded otherwise. -/
theorem c1_sequenced_staleness_window (s : ReceivePart) (acks : RangeList)
    (closed : Bool) (mn ord : Nat) (d : List Byte)
    (hd : d.head? ≠ some DisconnectNotificationId) :
    (processOne s acks closed ⟨mn, .UnreliableSequenced ord, none, d⟩ =
      if wsub ord s.unrel_seq_index < 2 ^ 31 - 1 then
        some ({ s with unrel_seq_index := (ord + 1) % 2 ^ 32 }, acks, closed,
          [⟨.UnreliableSequenced, d⟩])
      else some (s, acks, closed, [])) ∧
    (∀ (seqRecv b0 b1 b2 b3 : Nat) (payload : List Byte),
      receiveUdpDatagram seqRecv (1 :: b0 :: b1 :: b2 :: b3 :: payload) =
        if wsub (b0 + 256 * b1 + 65536 * b2 + 16777216 * b3) seqRecv <
            2 ^ 31 - 1 then
          some (some ⟨.UnreliableSequenced, payload⟩,
            (b0 + 256 * b1 + 65536 * b2 + 16777216 * b3 + 1) % 2 ^ 32)
        else some (none, seqRecv)) := by
  have h1 : HALF_U32_MAX = 2 ^ 31 - 1 := by norm_num [HALF_U32_MAX]
  have h2 : ∀ x : Nat, wadd1 x = (x + 1) % 2 ^ 32 := by
    intro x
    norm_num [wadd1, U32LIM]
  constructor
  · simp only [processOne, splitPhase, h1, h2, hd, if_false, if_neg hd]
  · intro seqRecv b0 b1 b2 b3 payload
    simp only [receiveUdpDatagram, h1, h2]
    norm_num

/-- Witness for `c1_sequenced_staleness_window` at a concrete state and
datagram. -/
theorem c1_sequenced_staleness_window_witness :
    (processOne ReceivePart.default [] false
        ⟨0, .UnreliableSequenced 5, none, [1]⟩ =
      if wsub 5 (ReceivePart.default).unrel_seq_index < 2 ^ 31 - 1 then
        some ({ ReceivePart.default with unrel_seq_index := (5 + 1) % 2 ^ 32 },
          [], false, [⟨.UnreliableSequenced, [1]⟩])
      else some (ReceivePart.default, [], false, [])) ∧
    receiveUdpDatagram 7 [1, 9, 0, 0, 0] =
      (if wsub (9 + 256 * 0 + 65536 * 0 + 16777216 * 0) 7 < 2 ^ 31 - 1 then
        some (some ⟨.UnreliableSequenced, []⟩,
          (9 + 256 * 0 + 65536 * 0 + 16777216 * 0 + 1) % 2 ^ 32)
      else some (none, 7)) :=
  ⟨(c1_sequenced_staleness_window ReceivePart.default [] false 0 5 [1]
      (by decide)).1,
   (c1_sequenced_staleness_window ReceivePart.default [] false 0 5 [1]
      (by decide)).2 7 9 0 0 0 []⟩

/-! ## C6: ReliableOrdered in-order delivery with hold and drain -/

theorem mapLookup_mapErase {α : Type} (k k' : Nat) (m : List (Nat × α)) :
    mapLookup k (mapErase k' m) = if k = k' then none else mapLookup k m := by
  induction m with
  | nil => simp [mapLookup, mapErase]
  | cons e t ih =>
    obtain ⟨a, v⟩ := e
    by_cases hak' : a = k' <;> by_cases hak : a = k <;>
      simp only [mapErase, mapLookup, hak', hak, if_true, if_false, ih] <;>
      simp_all [mapLookup]

theorem length_mapErase_le {α : Type} (k : Nat) (m : List (Nat × α)) :
    (mapErase k m).length ≤ m.length := by
  induction m with
  | nil => simp [mapErase]
  | cons e t ih =>
    simp only [mapErase]
    split <;> simp only [List.length_cons] <;> omega

theorem length_mapErase_lt {α : Type} (k : Nat) (m : List (Nat × α)) (v : α)
    (h : mapLookup k m = some v) : (mapErase k m).length < m.length := by
  induction m with
  | nil => simp [mapLookup] at h
  | cons e t ih =>
    obtain ⟨a, w⟩ := e
    by_cases hak : a = k
    · simp only [mapErase, hak, if_true, List.length_cons]
      have := length_mapErase_le k t
      omega
    · simp only [mapLookup, hak, if_false] at h
      simp only [mapErase, hak, if_false, List.length_cons]
      have := ih h
      omega

/-- Characterization of the release loop: with adequate fuel it delivers the
packets stored at consecutive indices starting at `idx`, stops at the first
missing index, and removes exactly the delivered entries. -/
theorem drainFuel_spec :
    ∀ (fuel idx : Nat) (oo : List (Nat × Packet)),
      oo.length < fuel → idx < U32LIM → oo.length < U32LIM →
    ∃ ps idx' oo',
      drainFuel fuel idx oo = (ps, idx', oo') ∧
      ps.length ≤ oo.length ∧
      idx' = (idx + ps.length) % U32LIM ∧
      (∀ k (hk : k < ps.length),
        mapLookup ((idx + k) % U32LIM) oo = some (ps.get ⟨k, hk⟩)) ∧
      mapLookup idx' oo' = none := by
  intro fuel
  induction fuel with
  | zero =>
    intro idx oo h
    exact absurd h (Nat.not_lt_zero _)
  | succ f ih =>
    intro idx oo hlen hidx hoo
    rcases hl : mapLookup idx oo with _ | p
    · refine ⟨[], idx, oo, ?_, ?_, ?_, ?_, ?_⟩
      · simp [drainFuel, hl]
      · simp
      · simp [Nat.mod_eq_of_lt hidx]
      · intro k hk
        simp at hk
      · exact hl
    · have herl := length_mapErase_lt idx oo p hl
      have h1 : (mapErase idx oo).length < f := by omega
      have h2 : wadd1 idx < U32LIM := by
        have : U32LIM = 4294967296 := rfl
        simp only [wadd1, this]
        omega
      have h3 : (mapErase idx oo).length < U32LIM := by omega
      obtain ⟨ps, idx', oo', heq, hle, hidx', hks, hnone⟩ :=
        ih (wadd1 idx) (mapErase idx oo) h1 h2 h3
      refine ⟨p :: ps, idx', oo', ?_, ?_, ?_, ?_, ?_⟩
      · simp [drainFuel, hl, heq]
      · simp only [List.length_cons]
        omega
      · rw [hidx']
        simp only [wadd1, Nat.mod_add_mod, List.length_cons]
        congr 1
        omega
      · intro k hk
        match k with
        | 0 =>
          simpa [Nat.mod_eq_of_lt hidx] using hl
        | k + 1 =>
          have hk' : k < ps.length := by simpa using hk
          have heqmod : (wadd1 idx + k) % U32LIM = (idx + (k + 1)) % U32LIM := by
            simp only [wadd1, Nat.mod_add_mod]
            congr 1
            omega
          have hlk := hks k hk'
          rw [mapLookup_mapErase, heqmod] at hlk
          have hne : (idx + (k + 1)) % U32LIM ≠ idx := by
            have hM : U32LIM = 4294967296 := rfl
            have h5 : k + 1 < U32LIM := by
              rw [hM]
              omega
            intro hcontra
            rw [hM] at hcontra h5
            omega
          rw [if_neg hne] at hlk
          simpa using hlk
      · exact hnone

/-- C6: for ReliableOrdered sub-packets, a packet whose ordinal equals
`rel_ord_index` is delivered immediately, the index is incremented (with
wrap), and the queued out-of-order packets at the consecutive following
indices are then delivered in ordinal order until the first missing index; a
packet whose ordinal lies strictly ahead in the forward window is stored
without being delivered; in particular arrivals with ordinals `1, 0` deliver
payloads `0` then `1`, and arrivals `5, 1, 0` deliver `0` then `1` while the
packet at ordinal `5` remains queued. -/
theorem c6_reliable_ordered_hold_and_drain :
    (∀ (s : ReceivePart) (acks : RangeList) (closed : Bool) (mn : Nat)
       (d : List Byte),
       d.head? ≠ some DisconnectNotificationId →
       s.rel_ord_index < U32LIM → s.out_of_order_packets.length < U32LIM →
       ∃ ps idx' oo',
         processOne s acks closed
             ⟨mn, .ReliableOrdered s.rel_ord_index, none, d⟩ =
           some ({ s with rel_ord_index := idx', out_of_order_packets := oo' },
             RangeList.insert acks mn, closed,
             (⟨.ReliableOrdered, d⟩ : Packet) :: ps) ∧
         idx' = (s.rel_ord_index + 1 + ps.length) % U32LIM ∧
         (∀ k (hk : k < ps.length),
           mapLookup ((s.rel_ord_index + 1 + k) % U32LIM)
             s.out_of_order_packets = some (ps.get ⟨k, hk⟩)) ∧
         mapLookup idx' oo' = none) ∧
    (∀ (s : ReceivePart) (acks : RangeList) (closed : Bool) (mn ord : Nat)
       (d : List Byte),
       d.head? ≠ some DisconnectNotificationId →
       ord ≠ s.rel_ord_index → wsub ord s.rel_ord_index < HALF_U32_MAX →
       processOne s acks closed ⟨mn, .ReliableOrdered ord, none, d⟩ =
         some ({ s with out_of_order_packets := mapInsert ord ⟨.ReliableOrdered, d⟩ s.out_of_order_packets },
           RangeList.insert acks mn, closed, [])) ∧
    processIncoming ReceivePart.default [] false
      [⟨1, .ReliableOrdered 1, none, [1]⟩, ⟨0, .ReliableOrdered 0, none, [0]⟩] =
      some (⟨0, 2, [], []⟩, [⟨0, 1⟩], false,
        [⟨.ReliableOrdered, [0]⟩, ⟨.ReliableOrdered, [1]⟩]) ∧
    processIncoming ReceivePart.default [] false
      [⟨5, .ReliableOrdered 5, none, [5]⟩, ⟨1, .ReliableOrdered 1, none, [1]⟩,
       ⟨0, .ReliableOrdered 0, none, [0]⟩] =
      some (⟨0, 2, [(5, ⟨.ReliableOrdered, [5]⟩)], []⟩, [⟨0, 1⟩, ⟨5, 5⟩], false,
        [⟨.ReliableOrdered, [0]⟩, ⟨.ReliableOrdered, [1]⟩]) := by
  refine ⟨?_, ?_, by decide, by decide⟩
  · intro s acks closed mn d hd hidx hoo
    have h2 : wadd1 s.rel_ord_index < U32LIM := by
      have hM : U32LIM = 4294967296 := rfl
      simp only [wadd1, hM]
      omega
    obtain ⟨ps, idx', oo', heq, hle, hidx', hks, hnone⟩ :=
      drainFuel_spec (s.out_of_order_packets.length + 1)
        (wadd1 s.rel_ord_index) s.out_of_order_packets (by omega) h2 hoo
    refine ⟨ps, idx', oo', ?_, ?_, ?_, hnone⟩
    · simp only [processOne, splitPhase, hd, if_false, drain, heq, if_pos rfl]
      simp [hd]
    · rw [hidx']
      simp only [wadd1, Nat.mod_add_mod]
    · intro k hk
      have := hks k hk
      have heqmod : (wadd1 s.rel_ord_index + k) % U32LIM =
          (s.rel_ord_index + 1 + k) % U32LIM := by
        simp only [wadd1, Nat.mod_add_mod]
      rw [heqmod] at this
      exact this
  · intro s acks closed mn ord d hd hne hwin
    simp only [processOne, splitPhase, if_neg hne, if_pos hwin]
    simp [hd]

/-- Witness for `c6_reliable_ordered_hold_and_drain` at concrete states: an
in-order arrival draining a queued successor, and an early arrival being
stored. -/
theorem c6_reliable_ordered_hold_and_drain_witness :
    (∃ ps idx' oo',
      processOne ⟨0, 0, [(1, ⟨.ReliableOrdered, [1]⟩)], []⟩ [] false
          ⟨0, .ReliableOrdered
            (ReceivePart.mk 0 0 [(1, ⟨.ReliableOrdered, [1]⟩)] []).rel_ord_index,
            none, [0]⟩ =
        some ({ ReceivePart.mk 0 0 [(1, ⟨.ReliableOrdered, [1]⟩)] [] with rel_ord_index := idx', out_of_order_packets := oo' },
          RangeList.insert [] 0, false,
          (⟨.ReliableOrdered, [0]⟩ : Packet) :: ps) ∧
      idx' = ((ReceivePart.mk 0 0 [(1, ⟨.ReliableOrdered, [1]⟩)] []).rel_ord_index
          + 1 + ps.length) % U32LIM ∧
      (∀ k (hk : k < ps.length),
        mapLookup (((ReceivePart.mk 0 0 [(1, ⟨.ReliableOrdered, [1]⟩)] []).rel_ord_index
            + 1 + k) % U32LIM)
          (ReceivePart.mk 0 0 [(1, ⟨.ReliableOrdered, [1]⟩)] []).out_of_order_packets
          = some (ps.get ⟨k, hk⟩)) ∧
      mapLookup idx' oo' = none) ∧
    processOne ReceivePart.default [] false ⟨7, .ReliableOrdered 3, none, [2]⟩ =
      some ({ ReceivePart.default with out_of_order_packets := mapInsert 3 ⟨.ReliableOrdered, [2]⟩ ReceivePart.default.out_of_order_packets },
        RangeList.insert [] 7, false, []) :=
  ⟨c6_reliable_ordered_hold_and_drain.1
      ⟨0, 0, [(1, ⟨.ReliableOrdered, [1]⟩)], []⟩ [] false 0 [0]
      (by decide) (by decide) (by decide),
   c6_reliable_ordered_hold_and_drain.2.1 ReceivePart.default [] false 7 3 [2]
      (by decide) (by decide) (by decide)⟩

/-! ## C7: outbound splitting -/

theorem chunksFuel_flatten {α : Type} :
    ∀ (fuel n : Nat) (l : List α), 1 ≤ n → l.length ≤ fuel →
      (chunksFuel n fuel l).flatten = l := by
  intro fuel
  induction fuel with
  | zero =>
    intro n l hn hl
    have : l = [] := List.eq_nil_of_length_eq_zero (by omega)
    simp [this, chunksFuel]
  | succ f ih =>
    intro n l hn hl
    match l with
    | [] => simp [chunksFuel]
    | a :: t =>
      simp only [chunksFuel, List.flatten_cons]
      have hd : ((a :: t).drop n).length ≤ f := by
        rw [List.length_drop]
        simp only [List.length_cons] at hl ⊢
        omega
      rw [ih n ((a :: t).drop n) hn hd]
      exact List.take_append_drop n (a :: t)

theorem chunksOf_flatten {α : Type} (n : Nat) (l : List α) (hn : 1 ≤ n) :
    (chunksOf n l).flatten = l :=
  chunksFuel_flatten l.length n l hn le_rfl

theorem chunksFuel_mem_length {α : Type} :
    ∀ (fuel n : Nat) (l : List α) (c : List α),
      c ∈ chunksFuel n fuel l → c.length ≤ n := by
  intro fuel
  induction fuel with
  | zero =>
    intro n l c hc
    simp [chunksFuel] at hc
  | succ f ih =>
    intro n l c hc
    match l with
    | [] => simp [chunksFuel] at hc
    | a :: t =>
      simp only [chunksFuel, List.mem_cons] at hc
      rcases hc with hc | hc
      · subst hc
        simp [List.length_take]
      · exact ih n _ c hc

theorem chunksOf_mem_length {α : Type} (n : Nat) (l : List α) (c : List α)
    (hc : c ∈ chunksOf n l) : c.length ≤ n :=
  chunksFuel_mem_length l.length n l c hc

theorem relData_message_number (s : SendPart) (rel : Reliability) :
    ((s.relData rel).2).message_number = s.message_number := by
  cases rel <;> rfl

theorem relData_split_packet_index (s : SendPart) (rel : Reliability) :
    ((s.relData rel).2).split_packet_index = s.split_packet_index := by
  cases rel <;> rfl

theorem buildChunks_map_data (rd : ReliabilityData) (sid cnt : Nat) :
    ∀ (cs : List (List Byte)) (s : SendPart) (i : Nat),
      (buildChunks rd sid cnt s i cs).2.map (fun p => p.data) = cs := by
  intro cs
  induction cs with
  | nil => intro s i; rfl
  | cons c t ih =>
    intro s i
    simp [buildChunks, ih]

theorem buildChunks_length (rd : ReliabilityData) (sid cnt : Nat)
    (cs : List (List Byte)) (s : SendPart) (i : Nat) :
    (buildChunks rd sid cnt s i cs).2.length = cs.length := by
  have := buildChunks_map_data rd sid cnt cs s i
  simpa using congrArg List.length this

theorem buildChunks_fst (rd : ReliabilityData) (sid cnt : Nat) :
    ∀ (cs : List (List Byte)) (s : SendPart) (i : Nat),
      s.message_number < U32LIM →
      (buildChunks rd sid cnt s i cs).1 =
        { s with message_number := (s.message_number + cs.length) % U32LIM } := by
  intro cs
  induction cs with
  | nil =>
    intro s i h
    cases s
    simp [buildChunks, Nat.mod_eq_of_lt h]
  | cons c t ih =>
    intro s i h
    have h2 : wadd1 s.message_number < U32LIM := by
      have hM : U32LIM = 4294967296 := rfl
      simp only [wadd1, hM]
      omega
    cases s
    simp only [buildChunks, SendPart.messageNumber]
    rw [ih _ _ h2]
    simp only [wadd1, Nat.mod_add_mod, List.length_cons]
    congr 2
    omega

theorem buildChunks_getElem (rd : ReliabilityData) (sid cnt : Nat) :
    ∀ (cs : List (List Byte)) (s : SendPart) (i k : Nat),
      s.message_number < U32LIM → k < cs.length →
      ((buildChunks rd sid cnt s i cs).2[k]?).map
          (fun p => (p.message_number, p.rel_data, p.split_packet_info)) =
        some ((s.message_number + k) % U32LIM, rd,
          some ⟨sid, (i + k) % U32LIM, cnt⟩) := by
  intro cs
  induction cs with
  | nil =>
    intro s i k h hk
    simp at hk
  | cons c t ih =>
    intro s i k h hk
    match k with
    | 0 =>
      simp [buildChunks, SendPart.messageNumber, Nat.mod_eq_of_lt h]
    | k + 1 =>
      have h2 : wadd1 s.message_number < U32LIM := by
        have hM : U32LIM = 4294967296 := rfl
        simp only [wadd1, hM]
        omega
      have hk' : k < t.length := by simpa using hk
      have := ih { s with message_number := wadd1 s.message_number } (i + 1) k h2 hk'
      simp only [buildChunks, SendPart.messageNumber, List.getElem?_cons_succ]
      rw [this]
      simp only [wadd1, Nat.mod_add_mod]
      have e1 : s.message_number + 1 + k = s.message_number + (k + 1) := by omega
      have e2 : i + 1 + k = i + (k + 1) := by omega
      rw [e1, e2]

theorem chunksFuel_length {α : Type} :
    ∀ (fuel n : Nat) (l : List α), 1 ≤ n → l.length ≤ fuel →
      (chunksFuel n fuel l).length = (l.length + n - 1) / n := by
  intro fuel
  induction fuel with
  | zero =>
    intro n l hn hl
    have hl0 : l = [] := List.eq_nil_of_length_eq_zero (by omega)
    subst hl0
    simp [chunksFuel, Nat.div_eq_of_lt (show n - 1 < n by omega)]
  | succ f ih =>
    intro n l hn hl
    match l with
    | [] => simp [chunksFuel, Nat.div_eq_of_lt (show n - 1 < n by omega)]
    | a :: t =>
      simp only [chunksFuel, List.length_cons]
      rw [ih n _ hn (by rw [List.length_drop]; simp only [List.length_cons] at hl ⊢; omega)]
      rw [List.length_drop]
      simp only [List.length_cons]
      rcases le_or_lt (t.length + 1) n with hc | hc
      · have e1 : t.length + 1 - n = 0 := by omega
        rw [e1]
        rw [Nat.div_eq_of_lt (show 0 + n - 1 < n by omega)]
        have e3 : t.length + 1 + n - 1 = t.length + n := by omega
        rw [e3, Nat.add_div_right _ (by omega)]
        rw [Nat.div_eq_of_lt (by omega)]
      · have e1 : t.length + 1 - n + n - 1 = t.length := by omega
        have e3 : t.length + 1 + n - 1 = t.length + n := by omega
        rw [e1, e3, Nat.add_div_right _ (by omega)]

theorem chunksOf_length {α : Type} (n : Nat) (l : List α) (hn : 1 ≤ n) :
    (chunksOf n l).length = (l.length + n - 1) / n :=
  chunksFuel_length l.length n l hn le_rfl

/-- Splitting behaviour of `process_outgoing_packets` on one oversize
packet. -/
theorem processOutgoingOne_split_spec (s : SendPart) (rel : Reliability)
    (data : List Byte) (hmn : s.message_number < U32LIM)
    (hgt : headerLen rel false + data.length > MAX_PACKET_SIZE) :
    ∃ s' rks, processOutgoingOne s ⟨rel, data⟩ = (s', rks) ∧
      rks.length =
        (chunksOf (MAX_PACKET_SIZE - headerLen rel true) data).length ∧
      rks.map (fun p => p.data) =
        chunksOf (MAX_PACKET_SIZE - headerLen rel true) data ∧
      (rks.map (fun p => p.data)).flatten = data ∧
      (∀ c ∈ rks.map (fun p => p.data),
        c.length ≤ MAX_PACKET_SIZE - headerLen rel true) ∧
      (∀ k, k < rks.length →
        (rks[k]?).map
            (fun p => (p.message_number, p.rel_data, p.split_packet_info)) =
          some ((s.message_number + k) % U32LIM, (s.relData rel).1,
            some ⟨s.split_packet_index, k % U32LIM, rks.length % U32LIM⟩)) ∧
      s' = { (s.relData rel).2 with message_number := (s.message_number + rks.length) % U32LIM, split_packet_index := (s.split_packet_index + 1) % 65536 } := by
  have hn : 1 ≤ MAX_PACKET_SIZE - headerLen rel true := by
    cases rel <;> decide
  have hkey : processOutgoingOne s ⟨rel, data⟩ =
      buildChunks (s.relData rel).1 s.split_packet_index
        ((chunksOf (MAX_PACKET_SIZE - headerLen rel true) data).length % U32LIM)
        { (s.relData rel).2 with split_packet_index := (s.split_packet_index + 1) % 65536 } 0
        (chunksOf (MAX_PACKET_SIZE - headerLen rel true) data) := by
    simp only [processOutgoingOne, if_pos hgt, SendPart.splitPacketIndex,
      relData_split_packet_index]
  set n := MAX_PACKET_SIZE - headerLen rel true with hndef
  set cs := chunksOf n data with hcs
  set s2 : SendPart := { (s.relData rel).2 with split_packet_index := (s.split_packet_index + 1) % 65536 } with hs2
  have hs2mn : s2.message_number = s.message_number := by
    rw [hs2]
    simp [relData_message_number]
  have hmn2 : s2.message_number < U32LIM := by rw [hs2mn]; exact hmn
  refine ⟨_, _, hkey, ?_, ?_, ?_, ?_, ?_, ?_⟩
  · rw [buildChunks_length]
  · rw [buildChunks_map_data]
  · rw [buildChunks_map_data]
    exact chunksOf_flatten n data hn
  · rw [buildChunks_map_data]
    intro c hc
    exact chunksOf_mem_length n data c hc
  · intro k hk
    rw [buildChunks_length] at hk
    have := buildChunks_getElem ((s.relData rel).1) s.split_packet_index
      (cs.length % U32LIM) cs s2 0 k hmn2 hk
    rw [this, hs2mn, buildChunks_length]
    simp
  · rw [buildChunks_fst _ _ _ _ _ _ hmn2, buildChunks_length, hs2, hs2mn]

/-- Non-splitting behaviour of `process_outgoing_packets` on one packet that
fits. -/
theorem processOutgoingOne_nosplit_spec (s : SendPart) (rel : Reliability)
    (data : List Byte)
    (hle : headerLen rel false + data.length ≤ MAX_PACKET_SIZE) :
    processOutgoingOne s ⟨rel, data⟩ =
      ({ (s.relData rel).2 with message_number := wadd1 s.message_number },
       [⟨s.message_number, (s.relData rel).1, none, data⟩]) := by
  have hgt : ¬(headerLen rel false + data.length > MAX_PACKET_SIZE) := by
    omega
  simp only [processOutgoingOne, if_neg hgt, SendPart.messageNumber,
    relData_message_number]

/-- C7: an outbound packet with `H(rel, false) + |data| > MAX_PACKET_SIZE`
(= 1200) is chunked into blocks of `MAX_PACKET_SIZE - H(rel, true)` bytes;
every chunk carries the freshly assigned split id, the common chunk count,
index `k` and message number `message_number + k` (wrapping), and the same
reliability ordinal; a `ReliableOrdered` packet of `3 × MAX_PACKET_SIZE`
bytes yields exactly four chunks with count 4, indices `0..3` and message
numbers `0..3`; a packet that fits is emitted as a single unsplit
sub-packet. -/
theorem c7_outbound_splitting :
    (∀ (s : SendPart) (rel : Reliability) (data : List Byte),
      s.message_number < U32LIM →
      headerLen rel false + data.length > MAX_PACKET_SIZE →
      ∃ s' rks, processOutgoingOne s ⟨rel, data⟩ = (s', rks) ∧
        rks.length =
          (chunksOf (MAX_PACKET_SIZE - headerLen rel true) data).length ∧
        rks.map (fun p => p.data) =
          chunksOf (MAX_PACKET_SIZE - headerLen rel true) data ∧
        (rks.map (fun p => p.data)).flatten = data ∧
        (∀ c ∈ rks.map (fun p => p.data),
          c.length ≤ MAX_PACKET_SIZE - headerLen rel true) ∧
        (∀ k, k < rks.length →
          (rks[k]?).map
              (fun p => (p.message_number, p.rel_data, p.split_packet_info)) =
            some ((s.message_number + k) % U32LIM, (s.relData rel).1,
              some ⟨s.split_packet_index, k % U32LIM, rks.length % U32LIM⟩)) ∧
        s' = { (s.relData rel).2 with message_number := (s.message_number + rks.length) % U32LIM, split_packet_index := (s.split_packet_index + 1) % 65536 }) ∧
    (∀ (s : SendPart) (rel : Reliability) (data : List Byte),
      headerLen rel false + data.length ≤ MAX_PACKET_SIZE →
      processOutgoingOne s ⟨rel, data⟩ =
        ({ (s.relData rel).2 with message_number := wadd1 s.message_number },
         [⟨s.message_number, (s.relData rel).1, none, data⟩])) ∧
    (∀ data : List Byte, data.length = 3 * MAX_PACKET_SIZE →
      ∃ s' rks,
        processOutgoingOne SendPart.new ⟨.ReliableOrdered, data⟩ = (s', rks) ∧
        rks.length = 4 ∧
        (∀ k, k < 4 →
          (rks[k]?).map
              (fun p => (p.message_number, p.rel_data, p.split_packet_info)) =
            some (k, .ReliableOrdered 0, some ⟨0, k, 4⟩)) ∧
        (rks.map (fun p => p.data)).flatten = data) ∧
    processOutgoing SendPart.new [⟨.ReliableOrdered, [7]⟩] =
      (⟨1, 0, 0, 1⟩, [⟨0, .ReliableOrdered 0, none, [7]⟩]) := by
  refine ⟨processOutgoingOne_split_spec, processOutgoingOne_nosplit_spec,
    ?_, by decide⟩
  intro data hdata
  have hgt : headerLen .ReliableOrdered false + data.length >
      MAX_PACKET_SIZE := by
    rw [hdata]
    decide
  obtain ⟨s', rks, heq, hlen, hmap, hflat, hbnd, hget, hs'⟩ :=
    processOutgoingOne_split_spec SendPart.new .ReliableOrdered data
      (by decide) hgt
  have hcount : rks.length = 4 := by
    rw [hlen, chunksOf_length _ _ (by decide), hdata]
    decide
  refine ⟨s', rks, heq, hcount, ?_, hflat⟩
  intro k hk
  have := hget k (by omega)
  rw [this, hcount]
  have hkL : k % U32LIM = k := Nat.mod_eq_of_lt (by
    have hM : U32LIM = 4294967296 := rfl
    omega)
  simp only [Option.some.injEq, Prod.mk.injEq, SplitPacketInfo.mk.injEq]
  exact ⟨by simpa [SendPart.new] using hkL, rfl, ⟨rfl, hkL, by decide⟩⟩

/-- Witness for `c7_outbound_splitting`: an oversize packet, a small packet
and the `3 × MAX_PACKET_SIZE` packet. -/
theorem c7_outbound_splitting_witness :
    (∃ s' rks, processOutgoingOne SendPart.new
        ⟨.ReliableOrdered, List.replicate 1191 0⟩ = (s', rks) ∧
      rks.length = (chunksOf
        (MAX_PACKET_SIZE - headerLen .ReliableOrdered true)
        (List.replicate 1191 0)).length ∧
      rks.map (fun p => p.data) = chunksOf
        (MAX_PACKET_SIZE - headerLen .ReliableOrdered true)
        (List.replicate 1191 0) ∧
      (rks.map (fun p => p.data)).flatten = List.replicate 1191 0 ∧
      (∀ c ∈ rks.map (fun p => p.data),
        c.length ≤ MAX_PACKET_SIZE - headerLen .ReliableOrdered true) ∧
      (∀ k, k < rks.length →
        (rks[k]?).map
            (fun p => (p.message_number, p.rel_data, p.split_packet_info)) =
          some ((SendPart.new.message_number + k) % U32LIM,
            (SendPart.new.relData .ReliableOrdered).1,
            some ⟨SendPart.new.split_packet_index, k % U32LIM,
              rks.length % U32LIM⟩)) ∧
      s' = { (SendPart.new.relData .ReliableOrdered).2 with message_number := (SendPart.new.message_number + rks.length) % U32LIM, split_packet_index := (SendPart.new.split_packet_index + 1) % 65536 }) ∧
    processOutgoingOne SendPart.new ⟨.Reliable, [1, 2]⟩ =
      ({ (SendPart.new.relData .Reliable).2 with message_number := wadd1 SendPart.new.message_number },
       [⟨SendPart.new.message_number, (SendPart.new.relData .Reliable).1,
         none, [1, 2]⟩]) ∧
    (∃ s' rks, processOutgoingOne SendPart.new
        ⟨.ReliableOrdered, List.replicate (3 * MAX_PACKET_SIZE) 0⟩ =
          (s', rks) ∧
      rks.length = 4 ∧
      (∀ k, k < 4 →
        (rks[k]?).map
            (fun p => (p.message_number, p.rel_data, p.split_packet_info)) =
          some (k, .ReliableOrdered 0, some ⟨0, k, 4⟩)) ∧
      (rks.map (fun p => p.data)).flatten =
        List.replicate (3 * MAX_PACKET_SIZE) 0) :=
  ⟨c7_outbound_splitting.1 SendPart.new .ReliableOrdered
      (List.replicate 1191 0) (by decide)
      (by simp only [List.length_replicate]; decide),
   c7_outbound_splitting.2.1 SendPart.new .Reliable [1, 2] (by decide),
   c7_outbound_splitting.2.2.1 (List.replicate (3 * MAX_PACKET_SIZE) 0)
      (by simp)⟩

/-! ## C8: ack emission and clearing -/

theorem foldl_bits_bounds :
    ∀ (t : List Bool) (a : Nat),
      a * 2 ^ t.length ≤
        t.foldl (fun a b => 2 * a + (if b then 1 else 0)) a ∧
      t.foldl (fun a b => 2 * a + (if b then 1 else 0)) a <
        (a + 1) * 2 ^ t.length := by
  intro t
  induction t with
  | nil => simp
  | cons b t ih =>
    intro a
    simp only [List.foldl_cons, List.length_cons]
    have h := ih (2 * a + (if b then 1 else 0))
    have hp : (0:Nat) < 2 ^ t.length := Nat.pos_pow_of_pos _ (by omega)
    have hbv : (if b then (1:Nat) else 0) ≤ 1 := by cases b <;> simp
    constructor
    · calc a * 2 ^ (t.length + 1) = (2 * a) * 2 ^ t.length := by ring
        _ ≤ (2 * a + (if b then 1 else 0)) * 2 ^ t.length :=
            Nat.mul_le_mul_right _ (by omega)
        _ ≤ _ := h.1
    · calc t.foldl (fun a b => 2 * a + (if b then 1 else 0))
            (2 * a + (if b then 1 else 0)) <
          (2 * a + (if b then 1 else 0) + 1) * 2 ^ t.length := h.2
        _ ≤ (2 * a + 2) * 2 ^ t.length := Nat.mul_le_mul_right _ (by omega)
        _ = (a + 1) * 2 ^ (t.length + 1) := by ring

theorem byteVal_true_ge (l : List Bool) : 128 ≤ byteVal (true :: l) := by
  unfold byteVal
  rw [List.take_succ_cons, List.foldl_cons]
  have hacc : (2 * 0 + if (true : Bool) then (1:Nat) else 0) = 1 := rfl
  rw [hacc]
  simp only [List.length_cons]
  have hlen : (l.take 7).length ≤ 7 := List.length_take_le 7 l
  have h := (foldl_bits_bounds (l.take 7) 1).1
  have h1 : (1:Nat) * 2 ^ (l.take 7).length = 2 ^ (l.take 7).length := by ring
  rw [h1] at h
  calc (128:Nat) =
      2 ^ ((l.take 7).length + (8 - ((l.take 7).length + 1))) := by
        have he : (l.take 7).length + (8 - ((l.take 7).length + 1)) = 7 := by
          omega
        rw [he]
        norm_num
    _ = 2 ^ (l.take 7).length * 2 ^ (8 - ((l.take 7).length + 1)) := pow_add 2 _ _
    _ ≤ (l.take 7).foldl (fun a b => 2 * a + (if b then 1 else 0)) 1 *
          2 ^ (8 - ((l.take 7).length + 1)) := Nat.mul_le_mul_right _ h

theorem byteVal_false_lt (l : List Bool) : byteVal (false :: l) < 128 := by
  unfold byteVal
  rw [List.take_succ_cons, List.foldl_cons]
  have hacc : (2 * 0 + if (false : Bool) then (1:Nat) else 0) = 0 := rfl
  rw [hacc]
  simp only [List.length_cons]
  have hlen : (l.take 7).length ≤ 7 := List.length_take_le 7 l
  have h := (foldl_bits_bounds (l.take 7) 0).2
  have h1 : ((0:Nat) + 1) * 2 ^ (l.take 7).length = 2 ^ (l.take 7).length := by
    ring
  rw [h1] at h
  have hle : (l.take 7).foldl (fun a b => 2 * a + (if b then 1 else 0)) 0 ≤
      2 ^ (l.take 7).length - 1 := by omega
  have hmul := Nat.mul_le_mul_right (2 ^ (8 - ((l.take 7).length + 1))) hle
  have he : 2 ^ (l.take 7).length * 2 ^ (8 - ((l.take 7).length + 1)) = 128 := by
    rw [← pow_add]
    have he2 : (l.take 7).length + (8 - ((l.take 7).length + 1)) = 7 := by omega
    rw [he2]
    norm_num
  have hp : (0:Nat) < 2 ^ (8 - ((l.take 7).length + 1)) :=
    Nat.pos_pow_of_pos _ (by omega)
  have hsub := Nat.sub_mul (2 ^ (l.take 7).length) 1
    (2 ^ (8 - ((l.take 7).length + 1)))
  calc (l.take 7).foldl (fun a b => 2 * a + (if b then 1 else 0)) 0 *
        2 ^ (8 - ((l.take 7).length + 1)) ≤
      (2 ^ (l.take 7).length - 1) * 2 ^ (8 - ((l.take 7).length + 1)) := hmul
    _ < 128 := by omega

theorem bitsToBytes_cons_head (x : Bool) (l : List Bool) :
    ∃ t bs, bitsToBytes (x :: l) = byteVal (x :: t) :: bs := by
  match l with
  | b1 :: b2 :: b3 :: b4 :: b5 :: b6 :: b7 :: r =>
    exact ⟨[b1, b2, b3, b4, b5, b6, b7], _, rfl⟩
  | [] => exact ⟨[], _, rfl⟩
  | [b1] => exact ⟨[b1], _, rfl⟩
  | [b1, b2] => exact ⟨[b1, b2], _, rfl⟩
  | [b1, b2, b3] => exact ⟨[b1, b2, b3], _, rfl⟩
  | [b1, b2, b3, b4] => exact ⟨[b1, b2, b3, b4], _, rfl⟩
  | [b1, b2, b3, b4, b5] => exact ⟨[b1, b2, b3, b4, b5], _, rfl⟩
  | [b1, b2, b3, b4, b5, b6] => exact ⟨[b1, b2, b3, b4, b5, b6], _, rfl⟩

theorem bitsToBytes_head_true (l : List Bool) :
    ∃ b t, bitsToBytes (true :: l) = b :: t ∧ 128 ≤ b := by
  obtain ⟨t, bs, h⟩ := bitsToBytes_cons_head true l
  exact ⟨_, bs, h, byteVal_true_ge t⟩

theorem bitsToBytes_head_false (l : List Bool) :
    ∃ b t, bitsToBytes (false :: l) = b :: t ∧ b < 128 := by
  obtain ⟨t, bs, h⟩ := bitsToBytes_cons_head false l
  exact ⟨_, bs, h, byteVal_false_lt t⟩

theorem sendLoop_nil_acks (time : Nat) :
    ∀ rps : List RaknetPacket,
      (sendLoop [] time rps).2 = [] ∧
      (sendLoop [] time rps).1.length = rps.length ∧
      ∀ d ∈ (sendLoop [] time rps).1, ∃ b t, d = b :: t ∧ b < 128 := by
  intro rps
  induction rps with
  | nil => simp [sendLoop]
  | cons p ps ih =>
    obtain ⟨ih1, ih2, ih3⟩ := ih
    have hstep : sendLoop [] time (p :: ps) =
        (bitsToBytes (writeRaknetPacket [false, false] p) ::
          (sendLoop [] time ps).1, (sendLoop [] time ps).2) := rfl
    rw [hstep]
    refine ⟨ih1, by simp [ih2], ?_⟩
    intro d hd
    rcases List.mem_cons.mp hd with hd | hd
    · subst hd
      have hw : ∃ rest, writeRaknetPacket [false, false] p = false :: rest :=
        ⟨_, rfl⟩
      obtain ⟨rest, hw⟩ := hw
      rw [hw]
      exact bitsToBytes_head_false rest
    · exact ih3 d hd

/-- Modelled from the spec's words (4.3 datagram assembly): the ack-only
datagram the claim describes, with a trailing `has_remote_clock = 0` bit
after the serialized range list.  Used only to compare the claim against the
code's actual ack-only datagram. -/
def claimedAckOnlyDatagram (acks : RangeList) (time : Nat) : List Byte :=
  bitsToBytes ((true :: (u32Bits time ++ RangeList.serializeBits acks)) ++
    [false])

/-- C8 (counterexample): with one pending singleton ack range the code's
ack-only datagram is 9 bytes — `has_acks=1`, clock echo, range list and
nothing else (72 bits, exactly 9 bytes) — while the claim's datagram with a
trailing `has_remote_clock=0` bit would be 10 bytes. -/
theorem c8_ack_only_counterexample :
    sendPackets SendPart.new [] [⟨0, 0⟩] 0 =
      (SendPart.new, [],
        [bitsToBytes (true :: (u32Bits 0 ++ RangeList.serializeBits [⟨0, 0⟩]))]) ∧
    (bitsToBytes (true :: (u32Bits 0 ++
      RangeList.serializeBits [⟨0, 0⟩]))).length = 9 ∧
    (claimedAckOnlyDatagram [⟨0, 0⟩] 0).length = 10 ∧
    bitsToBytes (true :: (u32Bits 0 ++ RangeList.serializeBits [⟨0, 0⟩])) ≠
      claimedAckOnlyDatagram [⟨0, 0⟩] 0 :=
  ⟨by decide, by decide, by decide, by decide⟩

theorem sendPackets_eq_of_ne (s : SendPart) (packets : List Packet)
    (acks : RangeList) (time : Nat)
    (hisE : (processOutgoing s packets).2.isEmpty = false) :
    sendPackets s packets acks time =
      ((processOutgoing s packets).1,
       (sendLoop acks time (processOutgoing s packets).2).2,
       (sendLoop acks time (processOutgoing s packets).2).1) := by
  simp only [sendPackets, hisE, Bool.false_eq_true, if_false]
  simp

/-- C8 (amended): in a `send_packets` call, (1) if no sub-packets are
produced and `pending_acks` is non-empty, exactly one ack-only datagram is
emitted, consisting of `has_acks=1`, the echoed remote clock and the
serialized range list and nothing more (no `has_remote_clock` bit, no
sub-packet), and the acks are cleared; (2) with no sub-packets and no
pending acks nothing is emitted; (3) if sub-packets are produced, each goes
in its own datagram, the first datagram's leading `has_acks` bit is 1
exactly when `pending_acks` was non-empty on entry, every later datagram in
the call has `has_acks=0`, and `pending_acks` is empty after the call. -/
theorem c8_ack_emission_and_clearing :
    (∀ (s : SendPart) (packets : List Packet) (acks : RangeList) (time : Nat),
      (processOutgoing s packets).2 = [] → acks ≠ [] →
      sendPackets s packets acks time =
        ((processOutgoing s packets).1, [],
         [bitsToBytes (true :: (u32Bits time ++
           RangeList.serializeBits acks))])) ∧
    (∀ (s : SendPart) (packets : List Packet) (acks : RangeList) (time : Nat),
      (processOutgoing s packets).2 = [] → acks = [] →
      sendPackets s packets acks time =
        ((processOutgoing s packets).1, [], [])) ∧
    (∀ (s : SendPart) (packets : List Packet) (acks : RangeList) (time : Nat),
      (processOutgoing s packets).2 ≠ [] →
      ∃ ds, sendPackets s packets acks time =
          ((processOutgoing s packets).1, [], ds) ∧
        ds.length = (processOutgoing s packets).2.length ∧
        (acks ≠ [] → ∃ b t, ds.head? = some (b :: t) ∧ 128 ≤ b) ∧
        (acks = [] → ∃ b t, ds.head? = some (b :: t) ∧ b < 128) ∧
        (∀ d ∈ ds.tail, ∃ b t, d = b :: t ∧ b < 128)) := by
  refine ⟨?_, ?_, ?_⟩
  · intro s packets acks time h hacks
    have hisE : (processOutgoing s packets).2.isEmpty = true := by
      rw [h]
      rfl
    have hisA : acks.isEmpty = false := by
      cases acks with
      | nil => exact absurd rfl hacks
      | cons a t => rfl
    simp only [sendPackets, hisE, if_true, sendAcksDatagrams, hisA,
      Bool.false_eq_true, if_false, writeAcks, Bool.not_false, if_true, h,
      sendLoop]
    simp
  · intro s packets acks time h hacks
    subst hacks
    have hisE : (processOutgoing s packets).2.isEmpty = true := by
      rw [h]
      rfl
    simp only [sendPackets, hisE, if_true, sendAcksDatagrams, h, sendLoop]
    simp
  · intro s packets acks time h
    rcases hpo : (processOutgoing s packets).2 with _ | ⟨p, ps⟩
    · exact absurd hpo h
    have hisE : (processOutgoing s packets).2.isEmpty = false := by
      rw [hpo]
      rfl
    obtain ⟨ht2, htlen, htail⟩ := sendLoop_nil_acks time ps
    have hmain := sendPackets_eq_of_ne s packets acks time hisE
    cases hacksc : acks with
    | cons a t =>
      have hisA : acks.isEmpty = false := by rw [hacksc]; rfl
      rw [← hacksc]
      have hstep : sendLoop acks time (p :: ps) =
          (bitsToBytes (writeRaknetPacket
            (((([] : List Bool) ++ [!acks.isEmpty]) ++ u32Bits time ++
              RangeList.serializeBits acks) ++ [false]) p) ::
            (sendLoop [] time ps).1, (sendLoop [] time ps).2) := by
        simp only [sendLoop, sendPacketDatagram, writeAcks, hisA,
          Bool.not_false, if_true]
      refine ⟨bitsToBytes (writeRaknetPacket
          (((([] : List Bool) ++ [!acks.isEmpty]) ++ u32Bits time ++
            RangeList.serializeBits acks) ++ [false]) p) ::
          (sendLoop [] time ps).1, ?_, ?_, ?_, ?_, ?_⟩
      · rw [hmain, hpo, hstep, ht2]
      · simp [htlen, hpo]
      · intro _
        simp only [List.head?_cons, Option.some.injEq]
        have hw : ∃ rest, writeRaknetPacket
            (((([] : List Bool) ++ [!acks.isEmpty]) ++ u32Bits time ++
              RangeList.serializeBits acks) ++ [false]) p =
            true :: rest := by
          rw [hisA]
          exact ⟨_, rfl⟩
        obtain ⟨rest, hw⟩ := hw
        rw [hw]
        obtain ⟨b, t2, hbt, hb⟩ := bitsToBytes_head_true rest
        exact ⟨b, t2, by simp [hbt], hb⟩
      · intro hc
        rw [hacksc] at hc
        exact absurd hc (by simp)
      · intro d hd
        exact htail d (by simpa using hd)
    | nil =>
      rw [hacksc] at hmain
      have hstep : sendLoop ([] : RangeList) time (p :: ps) =
          (bitsToBytes (writeRaknetPacket [false, false] p) ::
            (sendLoop [] time ps).1, (sendLoop [] time ps).2) := rfl
      refine ⟨bitsToBytes (writeRaknetPacket [false, false] p) ::
          (sendLoop [] time ps).1, ?_, ?_, ?_, ?_, ?_⟩
      · rw [hmain, hpo, hstep, ht2]
      · simp [htlen, hpo]
      · intro hc
        exact absurd rfl hc
      · intro _
        simp only [List.head?_cons, Option.some.injEq]
        have hw : ∃ rest, writeRaknetPacket [false, false] p = false :: rest :=
          ⟨_, rfl⟩
        obtain ⟨rest, hw⟩ := hw
        rw [hw]
        obtain ⟨b, t2, hbt, hb⟩ := bitsToBytes_head_false rest
        exact ⟨b, t2, by simp [hbt], hb⟩
      · intro d hd
        exact htail d (by simpa using hd)

/-- Witness for `c8_ack_emission_and_clearing`: an ack-only call and a
one-packet call with pending acks. -/
theorem c8_ack_emission_and_clearing_witness :
    (sendPackets SendPart.new [] [⟨0, 0⟩] 0 =
      ((processOutgoing SendPart.new []).1, [],
       [bitsToBytes (true :: (u32Bits 0 ++
         RangeList.serializeBits [⟨0, 0⟩]))])) ∧
    (∃ ds, sendPackets SendPart.new [⟨.Reliable, [9]⟩] [⟨0, 0⟩] 0 =
        ((processOutgoing SendPart.new [⟨.Reliable, [9]⟩]).1, [], ds) ∧
      ds.length = (processOutgoing SendPart.new [⟨.Reliable, [9]⟩]).2.length ∧
      (([⟨0, 0⟩] : RangeList) ≠ [] →
        ∃ b t, ds.head? = some (b :: t) ∧ 128 ≤ b) ∧
      (([⟨0, 0⟩] : RangeList) = [] →
        ∃ b t, ds.head? = some (b :: t) ∧ b < 128) ∧
      (∀ d ∈ ds.tail, ∃ b t, d = b :: t ∧ b < 128)) :=
  ⟨c8_ack_emission_and_clearing.1 SendPart.new [] [⟨0, 0⟩] 0 (by decide)
      (by decide),
   c8_ack_emission_and_clearing.2.2 SendPart.new [⟨.Reliable, [9]⟩] [⟨0, 0⟩] 0
      (by decide)⟩

/-! ## C9: disconnect handling -/

/-- C9: an inbound sub-packet whose (possibly reassembled) payload is
non-empty with first byte 19 (`DisconnectNotification`) sets the closed flag
and is not delivered; this includes the concrete reassembled split case; and
once closed, `Connection::send` fails with `ConnectionAborted` without
emitting any datagram. -/
theorem c9_disconnect_handling :
    (∀ (s : ReceivePart) (acks : RangeList) (closed : Bool) (mn : Nat)
       (rd : ReliabilityData) (d : List Byte),
       d.head? = some DisconnectNotificationId →
       ∃ acks', processOne s acks closed ⟨mn, rd, none, d⟩ =
         some (s, acks', true, [])) ∧
    processIncoming ReceivePart.default [] false
      [⟨0, .Reliable, some ⟨7, 0, 2⟩, [19]⟩,
       ⟨1, .Reliable, some ⟨7, 1, 2⟩, [42]⟩] =
      some (ReceivePart.default, [⟨0, 1⟩], true, []) ∧
    (∀ (c : RakConnection) (packets : List Packet), c.closed = true →
      RakConnection.send c packets = .error .ConnectionAborted) := by
  refine ⟨?_, by decide, ?_⟩
  · intro s acks closed mn rd d hd
    refine ⟨(match rd with
      | .Reliable => RangeList.insert acks mn
      | .ReliableOrdered _ => RangeList.insert acks mn
      | _ => acks), ?_⟩
    simp [processOne, splitPhase, hd]
  · intro c packets h
    simp [RakConnection.send, h]

/-- Witness for `c9_disconnect_handling` at a concrete state, packet and
connection. -/
theorem c9_disconnect_handling_witness :
    (∃ acks', processOne ReceivePart.default [] false
        ⟨3, .ReliableOrdered 0, none, [19, 1]⟩ =
      some (ReceivePart.default, acks', true, [])) ∧
    RakConnection.send ⟨true, 0, [], ReceivePart.default, SendPart.new⟩
        [⟨.Reliable, [1]⟩] = .error .ConnectionAborted :=
  ⟨c9_disconnect_handling.1 ReceivePart.default [] false 3
      (.ReliableOrdered 0) [19, 1] (by decide),
   c9_disconnect_handling.2.2 ⟨true, 0, [], ReceivePart.default, SendPart.new⟩
      [⟨.Reliable, [1]⟩] rfl⟩

/-! ## Payload scanner (`src/bridge.rs`) and fixed string (`src/string.rs`) -/

/-- UTF-8 continuation byte (`0x80..=0xBF`). -/
def utf8Cont (c : Byte) : Bool := 128 ≤ c && c ≤ 191

/-- UTF-8 validity of a byte sequence, as Rust's `str::from_utf8` checks it
(RFC 3629: shortest forms only, no surrogates, at most U+10FFFF). -/
def utf8Valid : List Byte → Bool
  | [] => true
  | b :: rest =>
    if b < 128 then utf8Valid rest
    else if 194 ≤ b && b ≤ 223 then
      match rest with
      | c1 :: r => utf8Cont c1 && utf8Valid r
      | _ => false
    else if b = 224 then
      match rest with
      | c1 :: c2 :: r => (160 ≤ c1 && c1 ≤ 191) && utf8Cont c2 && utf8Valid r
      | _ => false
    else if 225 ≤ b && b ≤ 236 then
      match rest with
      | c1 :: c2 :: r => utf8Cont c1 && utf8Cont c2 && utf8Valid r
      | _ => false
    else if b = 237 then
      match rest with
      | c1 :: c2 :: r => (128 ≤ c1 && c1 ≤ 159) && utf8Cont c2 && utf8Valid r
      | _ => false
    else if 238 ≤ b && b ≤ 239 then
      match rest with
      | c1 :: c2 :: r => utf8Cont c1 && utf8Cont c2 && utf8Valid r
      | _ => false
    else if b = 240 then
      match rest with
      | c1 :: c2 :: c3 :: r =>
        (144 ≤ c1 && c1 ≤ 191) && utf8Cont c2 && utf8Cont c3 && utf8Valid r
      | _ => false
    else if 241 ≤ b && b ≤ 243 then
      match rest with
      | c1 :: c2 :: c3 :: r =>
        utf8Cont c1 && utf8Cont c2 && utf8Cont c3 && utf8Valid r
      | _ => false
    else if b = 244 then
      match rest with
      | c1 :: c2 :: c3 :: r =>
        (128 ≤ c1 && c1 ≤ 143) && utf8Cont c2 && utf8Cont c3 && utf8Valid r
      | _ => false
    else false

/-- `ReadStr::read_fix` on a byte slice: split off 33 bytes (`none` models
the `split_at` panic when fewer remain), find the first null (`none` models
the no-terminator error), UTF-8-validate the prefix (`none` models the
invalid-UTF-8 error); returns the string bytes and the remaining slice. -/
def read_fix_bytes (l : List Byte) : Option (List Byte × List Byte) :=
  if l.length < 33 then none
  else
    match (l.take 33).findIdx? (fun x => x == 0) with
    | none => none
    | some i =>
      let strBytes := (l.take 33).take i
      if utf8Valid strBytes then some (strBytes, l.drop 33) else none

/-- The bytes of `"localhost"`. -/
def localhostBytes : List Byte := [108, 111, 99, 97, 108, 104, 111, 115, 116]

/-- The bytes of `"127.0.0.1"`. -/
def loopbackBytes : List Byte := [49, 50, 55, 46, 48, 46, 48, 46, 49]

/-- `WriteStr::write_fix("127.0.0.1")` output: the 9 bytes padded with zeros
to 33. -/
def loopbackFixed : List Byte := loopbackBytes ++ List.replicate 24 0

/-- Overwrite `vals.length` bytes of `l` starting at `i` (the in-place
writes into `&mut packet.data[i..]`). -/
def setRange (l : List Byte) (i : Nat) (vals : List Byte) : List Byte :=
  l.take i ++ vals ++ l.drop (i + vals.length)

/-- `Bridge::scan_packets` body for a single packet.  Network effects are
abstracted by parameters: `lookup host port` is the `addrs.get(connect_addr)`
lookup keyed by the resolved upstream (its value the local relay port), and
`freshPort` the bound port of the newly spawned relay otherwise.  Returns
`none` where the scan errors or panics (fixed-string read failure,
out-of-range reads), otherwise the (possibly rewritten) packet bytes and
whether a `NewShim` command was emitted. -/
def scanPacket (lookup : List Byte → Nat → Option Nat) (freshPort : Nat)
    (data : List Byte) : Option (List Byte × Bool) :=
  if 8 < data.length ∧ data.getD 0 0 = 83 ∧ data.getD 1 0 = 5 then
    if data.getD 3 0 = 0 then
      if data.getD 8 0 = 1 ∧ 413 < data.length then
        match read_fix_bytes (data.drop 345) with
        | none => none
        | some (host, _) =>
          let host := if host = localhostBytes then loopbackBytes else host
          let port := data.getD 411 0 + 256 * data.getD 412 0
          let pe := match lookup host port with
            | some p => (p, false)
            | none => (freshPort, true)
          some (setRange (setRange data 345 loopbackFixed) 411
            [pe.1 % 256, pe.1 / 256 % 256], pe.2)
      else some (data, false)
    else if data.getD 3 0 = 14 then
      match read_fix_bytes (data.drop 8) with
      | none => none
      | some (host, _) =>
        if data.length < 43 then none
        else
          let host := if host = localhostBytes then loopbackBytes else host
          let port := data.getD 41 0 + 256 * data.getD 42 0
          let pe := match lookup host port with
            | some p => (p, false)
            | none => (freshPort, true)
          some (setRange (setRange data 8 loopbackFixed) 41
            [pe.1 % 256, pe.1 / 256 % 256], pe.2)
    else some (data, false)
  else some (data, false)

theorem length_setRange (l : List Byte) (i0 : Nat) (vals : List Byte)
    (h : i0 + vals.length ≤ l.length) :
    (setRange l i0 vals).length = l.length := by
  simp [setRange, List.length_take, List.length_drop]
  omega

theorem getD_setRange_outside (l : List Byte) (i0 : Nat) (vals : List Byte)
    (hlen : i0 + vals.length ≤ l.length) (i : Nat)
    (h : i < i0 ∨ i0 + vals.length ≤ i) :
    (setRange l i0 vals).getD i 0 = l.getD i 0 := by
  rw [setRange, List.getD_eq_getElem?_getD, List.getD_eq_getElem?_getD]
  have hTV : (l.take i0 ++ vals).length = i0 + vals.length := by
    rw [List.length_append, List.length_take]
    omega
  rcases h with h | h
  · have h1 : i < (l.take i0).length := by
      rw [List.length_take]
      omega
    have h2 : i < (l.take i0 ++ vals).length := by
      rw [hTV]
      omega
    rw [List.getElem?_append, if_pos h2]
    rw [List.getElem?_append, if_pos h1, List.getElem?_take, if_pos h]
  · have h2 : (l.take i0 ++ vals).length ≤ i := by
      rw [hTV]
      omega
    rw [List.getElem?_append_right h2, List.getElem?_drop]
    have hidx : i0 + vals.length + (i - (l.take i0 ++ vals).length) = i := by
      rw [hTV]
      omega
    rw [hidx]

/-- C10: (a) a packet of length at most 8, or without the `0x53 0x05` magic,
or with subtype byte (offset 3) neither 0 nor 14, or — for subtype 0 — with
byte 8 ≠ 1 or length ≤ 413, passes through `scan_packets` byte-for-byte
unchanged with no `NewShim` command; (b) whenever scan succeeds, only the
33-byte host field and the 2-byte port field at the documented offsets of
the matching subtype can differ from the input, and a packet of neither
subtype is returned unchanged. -/
theorem c10_scanner_frame_condition :
    (∀ (lookup : List Byte → Nat → Option Nat) (freshPort : Nat)
       (data : List Byte),
      data.length ≤ 8 ∨ data.getD 0 0 ≠ 83 ∨ data.getD 1 0 ≠ 5 ∨
        (data.getD 3 0 ≠ 0 ∧ data.getD 3 0 ≠ 14) ∨
        (data.getD 3 0 = 0 ∧ (data.getD 8 0 ≠ 1 ∨ data.length ≤ 413)) →
      scanPacket lookup freshPort data = some (data, false)) ∧
    (∀ (lookup : List Byte → Nat → Option Nat) (freshPort : Nat)
       (data d' : List Byte) (emitted : Bool),
      scanPacket lookup freshPort data = some (d', emitted) →
      ∀ i : Nat,
        (data.getD 3 0 = 0 →
          (i < 345 ∨ (378 ≤ i ∧ i < 411) ∨ 413 ≤ i) →
          d'.getD i 0 = data.getD i 0) ∧
        (data.getD 3 0 = 14 →
          (i < 8 ∨ 43 ≤ i) → d'.getD i 0 = data.getD i 0) ∧
        (data.getD 3 0 ≠ 0 → data.getD 3 0 ≠ 14 → d' = data)) := by
  constructor
  · intro lookup freshPort data h
    unfold scanPacket
    by_cases hm : 8 < data.length ∧ data.getD 0 0 = 83 ∧ data.getD 1 0 = 5
    · rw [if_pos hm]
      rcases h with h | h | h | ⟨h1, h2⟩ | ⟨h1, h2⟩
      · exact absurd hm.1 (by omega)
      · exact absurd hm.2.1 h
      · exact absurd hm.2.2 h
      · rw [if_neg h1, if_neg h2]
      · rw [if_pos h1, if_neg (by
          intro hc
          rcases h2 with h2 | h2
          · exact h2 hc.1
          · omega)]
    · rw [if_neg hm]
  · intro lookup freshPort data d' emitted hscan i
    unfold scanPacket at hscan
    by_cases hm : 8 < data.length ∧ data.getD 0 0 = 83 ∧ data.getD 1 0 = 5
    case neg =>
      rw [if_neg hm] at hscan
      simp only [Option.some.injEq, Prod.mk.injEq] at hscan
      obtain ⟨hd', -⟩ := hscan
      subst hd'
      exact ⟨fun _ _ => rfl, fun _ _ => rfl, fun _ _ => rfl⟩
    case pos =>
      rw [if_pos hm] at hscan
      by_cases h3 : data.getD 3 0 = 0
      · rw [if_pos h3] at hscan
        by_cases h8 : data.getD 8 0 = 1 ∧ 413 < data.length
        · rw [if_pos h8] at hscan
          split at hscan
          · exact Option.noConfusion hscan
          · simp only [Option.some.injEq, Prod.mk.injEq] at hscan
            obtain ⟨hd', -⟩ := hscan
            refine ⟨?_, ?_, ?_⟩
            · intro _ hi
              have hLF : loopbackFixed.length = 33 := by decide
              have hL1 : 345 + loopbackFixed.length ≤ data.length := by
                omega
              rw [← hd']
              rw [getD_setRange_outside _ _ _ (by
                  rw [length_setRange _ _ _ hL1]
                  simp only [List.length_cons, List.length_nil]
                  omega) i (by
                  simp only [List.length_cons, List.length_nil]
                  omega)]
              rw [getD_setRange_outside _ _ _ hL1 i (by omega)]
            · intro h14
              exact absurd (h3.symm.trans h14) (by norm_num)
            · intro hne _
              exact absurd h3 hne
        · rw [if_neg h8] at hscan
          simp only [Option.some.injEq, Prod.mk.injEq] at hscan
          obtain ⟨hd', -⟩ := hscan
          subst hd'
          exact ⟨fun _ _ => rfl, fun _ _ => rfl, fun _ _ => rfl⟩
      · rw [if_neg h3] at hscan
        by_cases h14 : data.getD 3 0 = 14
        · rw [if_pos h14] at hscan
          split at hscan
          · exact Option.noConfusion hscan
          · by_cases h43 : data.length < 43
            · rw [if_pos h43] at hscan
              exact Option.noConfusion hscan
            · rw [if_neg h43] at hscan
              simp only [Option.some.injEq, Prod.mk.injEq] at hscan
              obtain ⟨hd', -⟩ := hscan
              refine ⟨?_, ?_, ?_⟩
              · intro h0
                exact absurd h0 h3
              · intro _ hi
                have hLF : loopbackFixed.length = 33 := by decide
                have hL1 : 8 + loopbackFixed.length ≤ data.length := by
                  omega
                rw [← hd']
                rw [getD_setRange_outside _ _ _ (by
                    rw [length_setRange _ _ _ hL1]
                    simp only [List.length_cons, List.length_nil]
                    omega) i (by
                    simp only [List.length_cons, List.length_nil]
                    omega)]
                rw [getD_setRange_outside _ _ _ hL1 i (by omega)]
              · intro _ hne
                exact absurd h14 hne
        · rw [if_neg h14] at hscan
          simp only [Option.some.injEq, Prod.mk.injEq] at hscan
          obtain ⟨hd', -⟩ := hscan
          subst hd'
          exact ⟨fun _ _ => rfl, fun _ _ => rfl, fun _ _ => rfl⟩

/-- Witness for `c10_scanner_frame_condition` at concrete packets. -/
theorem c10_scanner_frame_condition_witness :
    scanPacket (fun _ _ => none) 0 [1, 2, 3] = some ([1, 2, 3], false) ∧
    ((([0] : List Byte).getD 3 0 = 0 →
        ((0:Nat) < 345 ∨ (378 ≤ 0 ∧ (0:Nat) < 411) ∨ 413 ≤ 0) →
        ([0] : List Byte).getD 0 0 = ([0] : List Byte).getD 0 0) ∧
     (([0] : List Byte).getD 3 0 = 14 →
        ((0:Nat) < 8 ∨ 43 ≤ 0) →
        ([0] : List Byte).getD 0 0 = ([0] : List Byte).getD 0 0) ∧
     (([0] : List Byte).getD 3 0 ≠ 0 → ([0] : List Byte).getD 3 0 ≠ 14 →
        ([0] : List Byte) = [0])) :=
  ⟨c10_scanner_frame_condition.1 (fun _ _ => none) 0 [1, 2, 3] (by decide),
   c10_scanner_frame_condition.2 (fun _ _ => none) 0 [0] [0] false
     (by decide) 0⟩

end Shim
